import Mathlib

/-!
Verification development for `sentiment-analysis.py`: a shallow embedding of
the script's data-preparation utilities (corpus loading, vocabulary
construction, JSON persistence, request transformation, and the bucketed
batch iterator), together with theorems about the claims made by the
repository's specification.

Conventions: Python lists become Lean `List`s, Python `dict`s become
insertion-ordered association lists with Python's overwrite semantics,
machine integers become `Int`/`Nat`, fallible code returns `Option`, and
the external MXNet network is an abstract function parameter.
-/

namespace SA

/-! ### Python string primitives -/

/-- Whitespace characters recognised by Python's `str.split()`:
space, tab, newline, carriage return, vertical tab, form feed. -/
def pyIsSpace (c : Char) : Bool :=
  c = ' ' || c = '\t' || c = '\n' || c = '\r' || c = Char.ofNat 11 || c = Char.ofNat 12

/-- One step of splitting a character stream into whitespace-separated words.
The state is (current word being built from the right, completed words). -/
def pySplitStep (c : Char) (p : List Char × List (List Char)) :
    List Char × List (List Char) :=
  if pyIsSpace c then ([], if p.1.isEmpty then p.2 else p.1 :: p.2)
  else (c :: p.1, p.2)

/-- Python `s.split()`: split on runs of whitespace, discarding empty words. -/
def pySplit (s : String) : List String :=
  let r := s.toList.foldr pySplitStep ([], [])
  (if r.1.isEmpty then r.2 else r.1 :: r.2).map (fun cs => String.mk cs)

/-- Accumulate decimal digits, allowing a single underscore between digits
as Python's `int()` does. -/
def pyDigitsAux : Nat → List Char → Option Nat
  | acc, [] => some acc
  | acc, c :: cs =>
    if c.isDigit then pyDigitsAux (10 * acc + (c.toNat - 48)) cs
    else if c = '_' then
      match cs with
      | [] => none
      | d :: cs2 => if d.isDigit then pyDigitsAux (10 * acc + (d.toNat - 48)) cs2 else none
    else none

/-- Parse a nonempty digit sequence (with optional internal underscores). -/
def pyDigits : List Char → Option Nat
  | [] => none
  | c :: cs => if c.isDigit then pyDigitsAux (c.toNat - 48) cs else none

/-- Python `int(s)` on a string: optional surrounding whitespace, optional
sign, then a decimal digit sequence; `none` models `ValueError`. -/
def pyParseInt (s : String) : Option Int :=
  let cs := ((s.toList.dropWhile pyIsSpace).reverse.dropWhile pyIsSpace).reverse
  match cs with
  | [] => none
  | c :: rest =>
    if c = '-' then (pyDigits rest).map (fun n => -(n : Int))
    else if c = '+' then (pyDigits rest).map (fun n => (n : Int))
    else (pyDigits cs).map (fun n => (n : Int))

/-! ### Corpus loader: `get_dataset`

The file is modelled as its list of lines.  Each line is split on
whitespace; the first token is parsed as the integer label and the rest is
the sentence.  A line with no tokens (`IndexError` on `tokens[0]`) or an
unparseable first token (`ValueError` from `int`) makes the whole call
fail, modelled by `none`. -/

def get_dataset : List String → Option (List (List String) × List Int × Int)
  | [] => some ([], [], -1)
  | line :: rest =>
    match pySplit line with
    | [] => none
    | t0 :: words =>
      match pyParseInt t0 with
      | none => none
      | some lab =>
        match get_dataset rest with
        | none => none
        | some (sents, labs, m) =>
          some (words :: sents, lab :: labs, max (words.length : Int) m)

/-! ### JSON documents and vocabulary persistence

`vocab_to_json` / `vocab_from_json` write and read a `str -> int` dict
through a file; the file I/O is modelled by passing the JSON document
itself.  Python dicts are insertion-ordered, so a dict is an association
list. -/

inductive Json where
  | null : Json
  | bool : Bool → Json
  | int : Int → Json
  | str : String → Json
  | arr : List Json → Json
  | obj : List (String × Json) → Json

/-- Serialisation performed by `json.dump(vocab, out)` for a `str -> int`
dict: a JSON object whose members are the dict's entries in order. -/
def vocab_to_json (vocab : List (String × Int)) : Json :=
  Json.obj (vocab.map (fun p => (p.1, Json.int p.2)))

/-- Decode the members of a JSON object back into `str -> int` entries;
any non-integer value makes the read fail. -/
def decodeVocabEntries : List (String × Json) → Option (List (String × Int))
  | [] => some []
  | (k, Json.int n) :: rest =>
    match decodeVocabEntries rest with
    | none => none
    | some l => some ((k, n) :: l)
  | _ :: _ => none

/-- Deserialisation performed by `json.load(inp)` when the result is used
as a `str -> int` vocabulary. -/
def vocab_from_json : Json → Option (List (String × Int))
  | Json.obj kvs => decodeVocabEntries kvs
  | _ => none

/-! ### Vocabulary construction: `create_vocab`

`Counter` iterates its keys in first-occurrence order; `sorted(...,
reverse=True)` sorts the `(count, word)` pairs descending under Python's
lexicographic tuple and code-point string comparison; the dict
comprehension assigns ids `0, 1, 2, ...` over `chain(VOCAB_SYMBOLS,
vocab)` with later entries overwriting earlier ones. -/

/-- Python code-point comparison of character lists: `a <= b`
(`Char`'s order is code-point order). -/
def charListLeB : List Char → List Char → Bool
  | [], _ => true
  | _ :: _, [] => false
  | a :: as, b :: bs =>
    if a < b then true
    else if b < a then false
    else charListLeB as bs

/-- Python string comparison `a <= b` (code-point lexicographic). -/
def pyStrLeB (a b : String) : Bool :=
  charListLeB a.toList b.toList

/-- Descending order on `(count, word)` pairs used by
`sorted(..., reverse=True)`: `a` precedes `b` when `a >= b` in Python's
lexicographic tuple order. -/
def vocabGE (a b : Nat × String) : Prop :=
  b.1 < a.1 ∨ (b.1 = a.1 ∧ pyStrLeB b.2 a.2 = true)

instance : DecidableRel vocabGE := fun a b =>
  inferInstanceAs (Decidable (b.1 < a.1 ∨ (b.1 = a.1 ∧ pyStrLeB b.2 a.2 = true)))

/-- One `Counter` update: increment the count of `t`, first occurrence
registering it at the end (Python dict insertion order). -/
def bump (m : List (String × Nat)) (t : String) : List (String × Nat) :=
  if m.any (fun p => p.1 = t) then
    m.map (fun p => if p.1 = t then (p.1, p.2 + 1) else p)
  else m ++ [(t, 1)]

/-- `Counter(token for line in sentences for token in line).items()`:
the `(word, count)` pairs in first-occurrence order. -/
def counterItems (sentences : List (List String)) : List (String × Nat) :=
  sentences.flatten.foldl bump []

/-- Reserved symbols, in the order `VOCAB_SYMBOLS` lists them. -/
def VOCAB_SYMBOLS : List String := ["<pad>", "<unk>", "<s>", "</s>"]

/-- Pair each word with its position, starting from `n`: models
`enumerate` over the chained symbol/word stream. -/
def withIds : Nat → List String → List (String × Int)
  | _, [] => []
  | n, w :: ws => (w, (n : Int)) :: withIds (n + 1) ws

/-- Python dict assignment `d[k] = v`: overwrite in place if the key
exists, otherwise append. -/
def dictInsert (m : List (String × Int)) (k : String) (v : Int) :
    List (String × Int) :=
  if m.any (fun p => p.1 = k) then
    m.map (fun p => if p.1 = k then (p.1, v) else p)
  else m ++ [(k, v)]

/-- Build a Python dict from a stream of key/value pairs (a dict
comprehension): later pairs overwrite earlier ones. -/
def dictOfPairs (l : List (String × Int)) : List (String × Int) :=
  l.foldl (fun m p => dictInsert m p.1 p.2) []

/-- The pruned, descending-sorted `(count, word)` list
(`pruned_vocab` in the source), taking the counter items as input. -/
def pruned_vocab (items : List (String × Nat)) (min_count : Nat) :
    List (Nat × String) :=
  List.insertionSort vocabGE
    ((items.filter (fun p => min_count ≤ p.2)).map (fun p => (p.2, p.1)))

/-- `create_vocab` starting from the counter's items (in iteration
order); `min_count` defaults to 5 and `num_words` to 100000 at the call
sites. -/
def create_vocabItems (items : List (String × Nat))
    (min_count num_words : Nat) : List (String × Int) :=
  let vocab := ((pruned_vocab items min_count).map Prod.snd).take num_words
  dictOfPairs (withIds 0 (VOCAB_SYMBOLS ++ vocab))

/-- `create_vocab(sentences, min_count, num_words)`. -/
def create_vocab (sentences : List (List String))
    (min_count num_words : Nat) : List (String × Int) :=
  create_vocabItems (counterItems sentences) min_count num_words

/-! ### Serving: `transform_fn`

The network is an abstract function from an encoded token list to the
row of class scores `net(nd.array([tokens]))[0]`; `mx.nd.argmax` returns
the first index attaining the maximum. -/

/-- First index of the maximum, scanning left to right with the best
value so far (`argmaxAux best_index best_value next_index rest`). -/
def argmaxAux (bi : Nat) (bv : ℚ) (i : Nat) : List ℚ → Nat
  | [] => bi
  | x :: xs => if bv < x then argmaxAux i x (i + 1) xs else argmaxAux bi bv (i + 1) xs

/-- `mx.nd.argmax` over one row of scores (0 on an empty row). -/
def argmaxIdx : List ℚ → Nat
  | [] => 0
  | x :: xs => argmaxAux 0 x 1 xs

/-- `[vocab.get(token, 1) for token in row.split()]`: encode a raw
string, mapping out-of-vocabulary tokens to id 1 (`<unk>`). -/
def encodeRow (vocab : List (String × Int)) (row : String) : List Int :=
  (pySplit row).map (fun token => (vocab.lookup token).getD 1)

/-- Decode a list of JSON values as strings; any non-string fails. -/
def decodeStrList : List Json → Option (List String)
  | [] => some []
  | Json.str s :: rest =>
    match decodeStrList rest with
    | none => none
    | some l => some (s :: l)
  | _ :: _ => none

/-- Decode `json.loads(data)` as the list of rows iterated by
`transform_fn`; anything other than an array of strings fails. -/
def decodeStrArr : Json → Option (List String)
  | Json.arr xs => decodeStrList xs
  | _ => none

/-- `transform_fn(net, data, input_content_type, output_content_type)`:
parse the JSON body, encode and classify each row, and return the JSON
array of predicted class indices with the requested content type. -/
def transform_fn (net : List Int → List ℚ) (vocab : List (String × Int))
    (data : Json) (output_content_type : String) : Option (Json × String) :=
  match decodeStrArr data with
  | none => none
  | some rows =>
    some
      (Json.arr
        (rows.map (fun row =>
          Json.int (argmaxIdx (net (encodeRow vocab row)) : Int))),
        output_content_type)

/-! ### Bucketed batch iterator: `BucketSentenceIter`

The iterator's observable state: its buckets, the per-bucket padded rows
and labels, the list of `(bucket, offset)` batch starts, and the cursor.
The fields `data_name`, `label_name`, `dtype` and the `'NT'` layout are
constants of the use in this script and are not tracked; `major_axis = 0`
(the `'NT'` layout) is fixed, so a batch is `(batch_size, bucket_key)`
shaped data plus `batch_size` labels. -/

/-- Maximum of a list of naturals (`max(buckets)` on a nonempty list). -/
def listMax (l : List Nat) : Nat := l.foldr max 0

/-- `bisect.bisect_left(buckets, x)` on a sorted list: the number of
elements strictly below `x`, i.e. the first index whose element is
`>= x` (or the length when there is none). -/
def bisect_left (buckets : List Nat) (x : Nat) : Nat :=
  (buckets.takeWhile (fun b => b < x)).length

/-- `np.full((L,), invalid_label)` followed by `buff[:len(s)] = s`:
the sentence right-padded with `invalid_label` to length `L`. -/
def padTo (L : Nat) (invalid_label : Int) (s : List Int) : List Int :=
  s ++ List.replicate (L - s.length) invalid_label

/-- State of the `__init__` filling loop: per-bucket data rows,
per-bucket labels, and the number of discarded sentences. -/
def FillState : Type := List (List (List Int)) × List (List Int) × Nat

/-- One iteration of the `__init__` loop on `(sent, label)`: find the
bucket by `bisect_left`, discard if the sentence fits no bucket, else
append the padded sentence and its label to that bucket. -/
def fillStep (buckets : List Nat) (invalid_label : Int) (st : FillState)
    (p : List Int × Int) : FillState :=
  let buck := bisect_left buckets p.1.length
  if buck = buckets.length then (st.1, st.2.1, st.2.2 + 1)
  else
    (st.1.set buck (st.1.getD buck [] ++ [padTo (buckets.getD buck 0) invalid_label p.1]),
     st.2.1.set buck (st.2.1.getD buck [] ++ [p.2]),
     st.2.2)

/-- The `__init__` loop over `enumerate(sentences)` (which reads
`labels[i]` in lockstep, hence the zip). -/
def fillBuckets (sentences : List (List Int)) (labels : List Int)
    (buckets : List Nat) (invalid_label : Int) : FillState :=
  (sentences.zip labels).foldl (fillStep buckets invalid_label)
    (buckets.map (fun _ => []), buckets.map (fun _ => []), 0)

/-- Automatic buckets when none are given:
`[i for i, j in enumerate(np.bincount([len(s) for s in sentences])) if j >= batch_size]`.
`np.bincount` of an empty list is empty; otherwise it has entries for
`0 .. max length`. -/
def defaultBuckets (sentences : List (List Int)) (batch_size : Nat) : List Nat :=
  match sentences with
  | [] => []
  | _ =>
    (List.range (listMax (sentences.map List.length) + 1)).filter
      (fun i => batch_size ≤ (sentences.map List.length).count i)

/-- Batch start offsets within one bucket of `n` rows:
`range(0, n - batch_size + 1, batch_size)`, which for `batch_size > 0`
is `0, bs, ..., (n / bs - 1) * bs`. -/
def bucketIdx (n batch_size : Nat) : List Nat :=
  (List.range (n / batch_size)).map (fun k => k * batch_size)

/-- The `self.idx` list: `(bucket, offset)` pairs over all buckets. -/
def makeIdx (data : List (List (List Int))) (batch_size : Nat) :
    List (Nat × Nat) :=
  (List.range data.length).flatMap
    (fun i => (bucketIdx (data.getD i []).length batch_size).map (fun j => (i, j)))

/-- Observable iterator state (fields: batch_size, buckets, nddata,
ndlabel, idx, curr_idx). -/
structure IterState where
  batch_size : Nat
  buckets : List Nat
  nddata : List (List (List Int))
  ndlabel : List (List Int)
  idx : List (Nat × Nat)
  curr_idx : Nat
deriving DecidableEq

/-- A yielded `DataBatch` (fields: data rows, labels, bucket_key). -/
structure Batch where
  data : List (List Int)
  label : List Int
  bucket_key : Nat
deriving DecidableEq

/-- `BucketSentenceIter.__init__` up to (but not including) the final
`self.reset()` call: resolve and sort the buckets, fill them, and build
`self.idx` in order with `curr_idx = 0`. -/
def initState (sentences : List (List Int)) (labels : List Int)
    (batch_size : Nat) (buckets0 : Option (List Nat)) (invalid_label : Int) :
    IterState :=
  let buckets :=
    List.insertionSort (fun a b => a ≤ b)
      (match buckets0 with
       | none => defaultBuckets sentences batch_size
       | some bs => bs)
  let st := fillBuckets sentences labels buckets invalid_label
  ⟨batch_size, buckets, st.1, st.2.1, makeIdx st.1 batch_size, 0⟩

/-- Reorder `xs` by the index list `p` (`xs[p]` in numpy, for `p` a
permutation of `range(len(xs))`). -/
def applyPerm (p : List Nat) (xs : List α) : List α :=
  p.filterMap (fun k => xs[k]?)

/-- `reset()`: zero the cursor, shuffle `idx`, and apply one fresh
permutation per bucket to that bucket's rows and (the same one) to its
labels.  The random draws are passed in as the oracle arguments `pidx`
(for `random.shuffle(self.idx)`) and `ps` (one `np.random.permutation`
per bucket). -/
def resetState (pidx : List Nat) (ps : List (List Nat)) (s : IterState) :
    IterState :=
  ⟨s.batch_size, s.buckets,
   (List.range s.nddata.length).map
     (fun i => applyPerm (ps.getD i []) (s.nddata.getD i [])),
   (List.range s.ndlabel.length).map
     (fun i => applyPerm (ps.getD i []) (s.ndlabel.getD i [])),
   applyPerm pidx s.idx, 0⟩

/-- The oracle arguments of a `reset` are genuine random permutations:
`pidx` permutes the positions of `idx` and `ps` holds one permutation of
each bucket's row positions. -/
def ValidReset (pidx : List Nat) (ps : List (List Nat)) (s : IterState) : Prop :=
  pidx.Perm (List.range s.idx.length) ∧
  ps.length = s.nddata.length ∧
  ∀ i, i < s.nddata.length →
    (ps.getD i []).Perm (List.range (s.nddata.getD i []).length)

/-- `next()`: `StopIteration` (modelled as `none`) once the cursor
reaches the end of `idx`, otherwise the `'NT'`-layout slice
`nddata[i][j : j + batch_size]` with its labels and `bucket_key`. -/
def nextBatch (s : IterState) : Option (Batch × IterState) :=
  match s.idx[s.curr_idx]? with
  | none => none
  | some (i, j) =>
    some
      (⟨((s.nddata.getD i []).drop j).take s.batch_size,
        ((s.ndlabel.getD i []).drop j).take s.batch_size,
        s.buckets.getD i 0⟩,
       ⟨s.batch_size, s.buckets, s.nddata, s.ndlabel, s.idx, s.curr_idx + 1⟩)

/-- Iterate `next()` a given number of times, failing if any call raises. -/
def iterateN : Nat → IterState → Option IterState
  | 0, s => some s
  | n + 1, s =>
    match nextBatch s with
    | none => none
    | some (_, t) => iterateN n t

/-- States reachable from `s` through any interleaving of `reset` calls
(with genuine random permutations) and successful `next` calls. -/
inductive Reaches : IterState → IterState → Prop
  | refl (s : IterState) : Reaches s s
  | reset {s t : IterState} (pidx : List Nat) (ps : List (List Nat)) :
      Reaches s t → ValidReset pidx ps t → Reaches s (resetState pidx ps t)
  | next {s t u : IterState} {b : Batch} :
      Reaches s t → nextBatch t = some (b, u) → Reaches s u

/-! ## Helper lemmas -/

theorem decodeVocabEntries_map (vocab : List (String × Int)) :
    decodeVocabEntries (vocab.map (fun p => (p.1, Json.int p.2))) = some vocab := by
  induction vocab with
  | nil => rfl
  | cons p t ih => simp [decodeVocabEntries, ih]

theorem decodeStrList_map (rows : List String) :
    decodeStrList (rows.map Json.str) = some rows := by
  induction rows with
  | nil => rfl
  | cons r t ih => simp [decodeStrList, ih]

/-! ## Claim C6: vocabulary save/load round trip -/

/-- C6: for every vocabulary (a `str -> int` mapping, i.e. an ordered
association list as Python dicts are), writing it with `vocab_to_json`
and reading the result back with `vocab_from_json` returns a mapping
equal to the original: save followed by load is the identity. -/
theorem claim_C6_vocab_json_round_trip (vocab : List (String × Int)) :
    vocab_from_json (vocab_to_json vocab) = some vocab := by
  simp [vocab_to_json, vocab_from_json, decodeVocabEntries_map]

/-! ## Claim C5: `transform_fn` on a JSON array of strings -/

/-- C5: for every request body that is a JSON array of strings,
`transform_fn` returns (with the requested output content type) a JSON
array of integers of the same length whose i-th entry is the argmax
class index of the network's output on the i-th string after whitespace
tokenization and vocabulary encoding, with out-of-vocabulary tokens
encoded as id 1. -/
theorem claim_C5_transform_fn (net : List Int → List ℚ)
    (vocab : List (String × Int)) (rows : List String)
    (output_content_type : String) :
    transform_fn net vocab (Json.arr (rows.map Json.str)) output_content_type =
      some
        (Json.arr
          (rows.map (fun row =>
            Json.int
              (argmaxIdx
                (net ((pySplit row).map
                  (fun token => (vocab.lookup token).getD 1))) : Int))),
         output_content_type) ∧
    (rows.map (fun row =>
      Json.int
        (argmaxIdx
          (net ((pySplit row).map
            (fun token => (vocab.lookup token).getD 1))) : Int))).length =
      rows.length := by
  constructor
  · simp [transform_fn, decodeStrArr, decodeStrList_map, encodeRow]
  · simp

/-! ## Claim C10: `get_dataset` fails on malformed lines -/

/-- C10: `get_dataset` is partial on malformed input: if some line has
no whitespace-separated tokens, or its first token does not parse as an
integer, the call raises (modelled as `none`) rather than returning. -/
theorem claim_C10_get_dataset_partial (lines : List String)
    (h : ∃ line ∈ lines,
      pySplit line = [] ∨ pyParseInt ((pySplit line).headD "") = none) :
    get_dataset lines = none := by
  induction lines with
  | nil => simp at h
  | cons line rest ih =>
    obtain ⟨bad, hbad, hfail⟩ := h
    rcases List.mem_cons.mp hbad with hhead | htail
    · subst hhead
      rcases hsplit : pySplit bad with _ | ⟨t0, words⟩
      · simp [get_dataset, hsplit]
      · rcases hfail with hfail | hfail
        · rw [hsplit] at hfail; cases hfail
        · rw [hsplit] at hfail
          simp only [List.headD_cons] at hfail
          simp [get_dataset, hsplit, hfail]
    · have hrest : get_dataset rest = none := ih ⟨bad, htail, hfail⟩
      rcases hsplit : pySplit line with _ | ⟨t0, words⟩
      · simp [get_dataset, hsplit]
      · rcases hparse : pyParseInt t0 with _ | lab
        · simp [get_dataset, hsplit, hparse]
        · simp [get_dataset, hsplit, hparse, hrest]

/-- C10 witness: the file whose single line is `"x 1"` (first token not
an integer) makes `get_dataset` fail. -/
theorem claim_C10_witness :
    (∃ line ∈ ["x 1"],
      pySplit line = [] ∨ pyParseInt ((pySplit line).headD "") = none) ∧
    get_dataset ["x 1"] = none :=
  ⟨by decide, claim_C10_get_dataset_partial ["x 1"] (by decide)⟩

/-! ## Claim C3: `get_dataset` on well-formed files -/

/-- C3: on a file whose every line is whitespace-separated tokens with
an integer first token, `get_dataset` returns parallel lists of equal
length where `labels[i]` is the parsed first token of line i and
`sentences[i]` is the list of that line's remaining tokens, and the
third return value is the maximum sentence length, `-1` for an empty
file. -/
theorem claim_C3_get_dataset (lines : List String)
    (h : ∀ line ∈ lines, ∃ t0 words lab,
      pySplit line = t0 :: words ∧ pyParseInt t0 = some lab) :
    ∃ sents labs m, get_dataset lines = some (sents, labs, m) ∧
      sents.length = lines.length ∧ labs.length = lines.length ∧
      (∀ i (hi : i < lines.length), ∃ t0,
        pySplit (lines.get ⟨i, hi⟩) = t0 :: sents.getD i [] ∧
        pyParseInt t0 = some (labs.getD i 0)) ∧
      (lines = [] → m = -1) ∧
      (∀ s ∈ sents, (s.length : Int) ≤ m) ∧
      (lines ≠ [] → ∃ s ∈ sents, m = (s.length : Int)) := by
  induction lines with
  | nil =>
    refine ⟨[], [], -1, rfl, rfl, rfl, ?_, fun _ => rfl, ?_, ?_⟩
    · intro i hi; cases hi
    · intro s hs; cases hs
    · intro hne; exact absurd rfl hne
  | cons line rest ih =>
    obtain ⟨t0, words, lab, hsplit, hparse⟩ := h line (List.mem_cons_self _ _)
    obtain ⟨sents, labs, m, hds, hls, hll, hidx, hemp, hub, hatt⟩ :=
      ih (fun l hl => h l (List.mem_cons_of_mem _ hl))
    refine ⟨words :: sents, lab :: labs, max (words.length : Int) m,
      ?_, by simp [hls], by simp [hll], ?_, ?_, ?_, ?_⟩
    · simp [get_dataset, hsplit, hparse, hds]
    · intro i hi
      match i with
      | 0 => exact ⟨t0, hsplit, hparse⟩
      | Nat.succ j =>
        have hj : j < rest.length := by
          simpa using Nat.lt_of_succ_lt_succ hi
        obtain ⟨t0', h1, h2⟩ := hidx j hj
        exact ⟨t0', h1, h2⟩
    · intro hcon; cases hcon
    · intro s hs
      rcases List.mem_cons.mp hs with rfl | hmem
      · exact le_max_left _ _
      · exact le_trans (hub s hmem) (le_max_right _ _)
    · intro _
      rcases eq_or_ne rest [] with rfl | hne
      · have hsents : sents = [] := List.eq_nil_of_length_eq_zero hls
        subst hsents
        have hm : m = -1 := hemp rfl
        subst hm
        exact ⟨words, List.mem_cons_self _ _,
          max_eq_left (by omega : (-1 : Int) ≤ (words.length : Int))⟩
      · obtain ⟨s0, hs0, hm0⟩ := hatt hne
        rcases le_total m (words.length : Int) with hle | hle
        · exact ⟨words, List.mem_cons_self _ _, max_eq_left hle⟩
        · exact ⟨s0, List.mem_cons_of_mem _ hs0, by rw [max_eq_right hle, hm0]⟩

/-! ## Order properties of the vocabulary sort relation -/

theorem charListLeB_total : ∀ a b : List Char,
    charListLeB a b = true ∨ charListLeB b a = true := by
  intro a
  induction a with
  | nil => intro b; left; simp [charListLeB]
  | cons x xs ih =>
    intro b
    cases b with
    | nil => right; simp [charListLeB]
    | cons y ys =>
      by_cases h1 : x < y
      · left; simp [charListLeB, h1]
      · by_cases h2 : y < x
        · right; simp [charListLeB, h2]
        · rcases ih ys with h | h
          · left; simp [charListLeB, h1, h2, h]
          · right; simp [charListLeB, h1, h2, h]

theorem charListLeB_trans : ∀ a b c : List Char,
    charListLeB a b = true → charListLeB b c = true → charListLeB a c = true := by
  intro a
  induction a with
  | nil => intro b c _ _; simp [charListLeB]
  | cons x xs ih =>
    intro b c hab hbc
    cases b with
    | nil => simp [charListLeB] at hab
    | cons y ys =>
      cases c with
      | nil => simp [charListLeB] at hbc
      | cons z zs =>
        by_cases hxy : x < y
        · by_cases hyz : y < z
          · simp [charListLeB, lt_trans hxy hyz]
          · by_cases hzy : z < y
            · simp [charListLeB, hyz, hzy] at hbc
            · have hyz' : y = z := le_antisymm (le_of_not_lt hzy) (le_of_not_lt hyz)
              subst hyz'
              simp [charListLeB, hxy]
        · by_cases hyx : y < x
          · simp [charListLeB, hxy, hyx] at hab
          · have hxy' : x = y := le_antisymm (le_of_not_lt hyx) (le_of_not_lt hxy)
            subst hxy'
            simp only [charListLeB, if_neg (lt_irrefl x)] at hab
            by_cases hxz : x < z
            · simp [charListLeB, hxz]
            · by_cases hzx : z < x
              · simp [charListLeB, hxz, hzx] at hbc
              · simp only [charListLeB, if_neg hxz, if_neg hzx] at hbc ⊢
                exact ih ys zs hab hbc

theorem charListLeB_antisymm : ∀ a b : List Char,
    charListLeB a b = true → charListLeB b a = true → a = b := by
  intro a
  induction a with
  | nil =>
    intro b _ hba
    cases b with
    | nil => rfl
    | cons y ys => simp [charListLeB] at hba
  | cons x xs ih =>
    intro b hab hba
    cases b with
    | nil => simp [charListLeB] at hab
    | cons y ys =>
      by_cases hxy : x < y
      · simp [charListLeB, hxy, asymm hxy] at hba
      · by_cases hyx : y < x
        · simp [charListLeB, hxy, hyx] at hab
        · have hxy' : x = y := le_antisymm (le_of_not_lt hyx) (le_of_not_lt hxy)
          subst hxy'
          simp only [charListLeB, if_neg (lt_irrefl x)] at hab hba
          rw [ih ys hab hba]

instance : IsTotal (Nat × String) vocabGE := by
  constructor
  intro a b
  rcases Nat.lt_trichotomy a.1 b.1 with h | h | h
  · right; exact Or.inl h
  · rcases charListLeB_total a.2.toList b.2.toList with hc | hc
    · right; exact Or.inr ⟨h, hc⟩
    · left; exact Or.inr ⟨h.symm, hc⟩
  · left; exact Or.inl h

instance : IsTrans (Nat × String) vocabGE := by
  constructor
  intro a b c hab hbc
  rcases hab with h1 | ⟨h1, h1'⟩
  · rcases hbc with h2 | ⟨h2, _⟩
    · exact Or.inl (lt_trans h2 h1)
    · exact Or.inl (h2 ▸ h1)
  · rcases hbc with h2 | ⟨h2, h2'⟩
    · exact Or.inl (h1 ▸ h2)
    · exact Or.inr ⟨h2.trans h1, charListLeB_trans _ _ _ h2' h1'⟩

theorem pyStrLeB_antisymm (a b : String) (hab : pyStrLeB a b = true)
    (hba : pyStrLeB b a = true) : a = b := by
  have h : a.toList = b.toList := charListLeB_antisymm _ _ hab hba
  have h2 : a.data = b.data := h
  exact congrArg String.mk h2

instance : IsAntisymm (Nat × String) vocabGE := by
  constructor
  intro a b hab hba
  rcases hab with h1 | ⟨h1, h1'⟩
  · rcases hba with h2 | ⟨h2, _⟩
    · omega
    · omega
  · rcases hba with h2 | ⟨h2, h2'⟩
    · omega
    · have hs : a.2 = b.2 := pyStrLeB_antisymm _ _ h2' h1'
      have hn : a.1 = b.1 := h1.symm
      obtain ⟨a1, a2⟩ := a
      obtain ⟨b1, b2⟩ := b
      simp_all

/-! ## Claim C7: determinism of `create_vocab`

Two runs on equal corpora produce equal `Counter` multisets; the only
run-to-run freedom is the enumeration order of the counter's items, so
determinism is the invariance of `create_vocabItems` under permutations
of its item list, which holds because the sort key `(count, word)`
totally orders the pruned pairs. -/

/-- C7: `create_vocab` is deterministic: two runs on equal corpora with
equal `min_count` and `num_words` return identical mappings, because
`sorted` orders the `(count, word)` pairs totally (ties in frequency are
ordered by the token string), making the result independent of the
counter's enumeration order — here, invariant under any permutation of
the counter's item list. -/
theorem claim_C7_create_vocab_deterministic
    (items1 items2 : List (String × Nat)) (min_count num_words : Nat)
    (h : items1.Perm items2) :
    create_vocabItems items1 min_count num_words =
      create_vocabItems items2 min_count num_words := by
  have hsort : pruned_vocab items1 min_count = pruned_vocab items2 min_count := by
    apply List.eq_of_perm_of_sorted (r := vocabGE)
    · exact
        ((List.perm_insertionSort vocabGE _).trans
          (((h.filter _).map _))).trans
          (List.perm_insertionSort vocabGE _).symm
    · exact List.sorted_insertionSort vocabGE _
    · exact List.sorted_insertionSort vocabGE _
  unfold create_vocabItems
  rw [hsort]

/-- C7 witness: two enumerations of the same counter content (two words
tied at frequency 5, listed in either order) yield the same mapping. -/
theorem claim_C7_witness :
    ([("a", 5), ("b", 5)] : List (String × Nat)).Perm [("b", 5), ("a", 5)] ∧
    create_vocabItems [("a", 5), ("b", 5)] 5 100000 =
      create_vocabItems [("b", 5), ("a", 5)] 5 100000 :=
  ⟨by decide,
   claim_C7_create_vocab_deterministic [("a", 5), ("b", 5)] [("b", 5), ("a", 5)]
     5 100000 (by decide)⟩

/-! ## Counter lemmas for Claim C2 -/

theorem assoc_key_unique {β : Type} (m : List (String × β))
    (hnd : (m.map Prod.fst).Nodup) {t : String} {a b : β}
    (h1 : (t, a) ∈ m) (h2 : (t, b) ∈ m) : a = b := by
  induction m with
  | nil => cases h1
  | cons p rest ih =>
    have hnd' := hnd
    simp only [List.map_cons, List.nodup_cons] at hnd'
    rcases List.mem_cons.mp h1 with rfl | h1'
    · rcases List.mem_cons.mp h2 with heq | h2'
      · exact (congrArg Prod.snd heq).symm
      · exact absurd (List.mem_map_of_mem Prod.fst h2') hnd'.1
    · rcases List.mem_cons.mp h2 with rfl | h2'
      · exact absurd (List.mem_map_of_mem Prod.fst h1') hnd'.1
      · exact ih hnd'.2 h1' h2'

theorem bump_keys_of_mem (m : List (String × Nat)) (t : String)
    (h : t ∈ m.map Prod.fst) : (bump m t).map Prod.fst = m.map Prod.fst := by
  have hany : m.any (fun p => p.1 = t) = true := by
    simp only [List.any_eq_true, decide_eq_true_eq]
    obtain ⟨p, hp, hpt⟩ := List.mem_map.mp h
    exact ⟨p, hp, hpt⟩
  rw [bump, if_pos hany, List.map_map]
  apply List.map_congr_left
  intro p _
  by_cases hp : p.1 = t <;> simp [hp]

theorem bump_keys_of_not_mem (m : List (String × Nat)) (t : String)
    (h : t ∉ m.map Prod.fst) :
    (bump m t).map Prod.fst = m.map Prod.fst ++ [t] := by
  have hany : m.any (fun p => p.1 = t) = false := by
    simp only [List.any_eq_false, decide_eq_true_eq]
    intro p hp hpt
    exact h (hpt ▸ List.mem_map_of_mem Prod.fst hp)
  rw [bump, if_neg (by simp [hany]), List.map_append]
  rfl

theorem bump_nodup (m : List (String × Nat)) (t : String)
    (hnd : (m.map Prod.fst).Nodup) : ((bump m t).map Prod.fst).Nodup := by
  by_cases h : t ∈ m.map Prod.fst
  · rw [bump_keys_of_mem m t h]; exact hnd
  · rw [bump_keys_of_not_mem m t h]
    refine hnd.append (List.nodup_singleton t) ?_
    intro a ha hat
    rw [List.mem_singleton] at hat
    exact h (hat ▸ ha)

theorem bump_mem_ne (m : List (String × Nat)) {t w : String} (c : Nat)
    (h : w ≠ t) : ((w, c) ∈ bump m t ↔ (w, c) ∈ m) := by
  unfold bump
  split
  · constructor
    · intro hm
      obtain ⟨p, hp, hfp⟩ := List.mem_map.mp hm
      by_cases hpt : p.1 = t
      · rw [if_pos hpt] at hfp
        have h1 : p.1 = w := congrArg Prod.fst hfp
        exact absurd (h1 ▸ hpt) h
      · rw [if_neg hpt] at hfp
        rwa [hfp] at hp
    · intro hm
      refine List.mem_map.mpr ⟨(w, c), hm, ?_⟩
      rw [if_neg h]
  · constructor
    · intro hm
      rcases List.mem_append.mp hm with hm' | hm'
      · exact hm'
      · simp at hm'
        exact absurd hm'.1 h
    · intro hm
      exact List.mem_append.mpr (Or.inl hm)

theorem bump_mem_self_of_not_mem (m : List (String × Nat)) (t : String) (c : Nat)
    (h : t ∉ m.map Prod.fst) : ((t, c) ∈ bump m t ↔ c = 1) := by
  have hany : m.any (fun p => p.1 = t) = false := by
    simp only [List.any_eq_false, decide_eq_true_eq]
    intro p hp hpt
    exact h (hpt ▸ List.mem_map_of_mem Prod.fst hp)
  rw [bump, if_neg (by simp [hany])]
  constructor
  · intro hm
    rcases List.mem_append.mp hm with hm' | hm'
    · exact absurd (List.mem_map_of_mem Prod.fst hm') h
    · simpa using hm'
  · intro hc
    subst hc
    exact List.mem_append.mpr (Or.inr (by simp))

theorem bump_mem_self_of_mem (m : List (String × Nat)) {t : String} {c0 : Nat}
    (c : Nat) (hnd : (m.map Prod.fst).Nodup) (h0 : (t, c0) ∈ m) :
    ((t, c) ∈ bump m t ↔ c = c0 + 1) := by
  have hany : m.any (fun p => p.1 = t) = true := by
    simp only [List.any_eq_true, decide_eq_true_eq]
    exact ⟨(t, c0), h0, rfl⟩
  rw [bump, if_pos hany]
  constructor
  · intro hm
    obtain ⟨p, hp, hfp⟩ := List.mem_map.mp hm
    by_cases hpt : p.1 = t
    · have hp2 : p = (t, p.2) := by
        obtain ⟨p1, p2⟩ := p
        simp at hpt
        rw [hpt]
      rw [hp2] at hp
      have := assoc_key_unique m hnd hp h0
      rw [if_pos hpt] at hfp
      have hc : c = p.2 + 1 := (congrArg Prod.snd hfp).symm
      omega
    · rw [if_neg hpt] at hfp
      exact absurd (congrArg Prod.fst hfp : p.1 = t) hpt
  · intro hc
    subst hc
    refine List.mem_map.mpr ⟨(t, c0), h0, ?_⟩
    rw [if_pos rfl]

theorem foldl_bump_spec (l : List String) :
    ∀ (m : List (String × Nat)), (m.map Prod.fst).Nodup →
    ((l.foldl bump m).map Prod.fst).Nodup ∧
    (∀ w c, ((w, c) ∈ l.foldl bump m ↔
      (∃ c0, (w, c0) ∈ m ∧ c = c0 + l.count w) ∨
      (w ∉ m.map Prod.fst ∧ w ∈ l ∧ c = l.count w))) := by
  induction l with
  | nil =>
    intro m hnd
    refine ⟨hnd, fun w c => ?_⟩
    simp only [List.foldl_nil, List.count_nil, List.not_mem_nil, false_and,
      and_false, or_false, Nat.add_zero]
    constructor
    · intro h; exact ⟨c, h, rfl⟩
    · rintro ⟨c0, h0, rfl⟩; exact h0
  | cons t l ih =>
    intro m hnd
    rw [List.foldl_cons]
    obtain ⟨ihnd, ihmem⟩ := ih (bump m t) (bump_nodup m t hnd)
    refine ⟨ihnd, fun w c => ?_⟩
    rw [ihmem w c]
    by_cases hwt : w = t
    · subst hwt
      by_cases hk : w ∈ m.map Prod.fst
      · obtain ⟨p, hp, hp1⟩ := List.mem_map.mp hk
        have hpm : (w, p.2) ∈ m := by
          obtain ⟨p1, p2⟩ := p
          cases hp1
          exact hp
        have hkb : w ∈ (bump m w).map Prod.fst := by
          rw [bump_keys_of_mem m w hk]; exact hk
        constructor
        · rintro (⟨c0, hc0, rfl⟩ | ⟨hnot, _, _⟩)
          · have hc0' : c0 = p.2 + 1 :=
              (bump_mem_self_of_mem m c0 hnd hpm).mp hc0
            left
            refine ⟨p.2, hpm, ?_⟩
            rw [hc0', List.count_cons_self]
            omega
          · exact absurd hkb hnot
        · rintro (⟨c0, hc0, rfl⟩ | ⟨hnot, _, _⟩)
          · have hc0' : c0 = p.2 := assoc_key_unique m hnd hc0 hpm
            left
            refine ⟨p.2 + 1, (bump_mem_self_of_mem m (p.2 + 1) hnd hpm).mpr rfl, ?_⟩
            rw [hc0', List.count_cons_self]
            omega
          · exact absurd hk hnot
      · have hkb : w ∈ (bump m w).map Prod.fst := by
          rw [bump_keys_of_not_mem m w hk]; simp
        constructor
        · rintro (⟨c0, hc0, rfl⟩ | ⟨hnot, _, _⟩)
          · have hc0' : c0 = 1 := (bump_mem_self_of_not_mem m w c0 hk).mp hc0
            right
            refine ⟨hk, List.mem_cons_self _ _, ?_⟩
            rw [hc0', List.count_cons_self]
            omega
          · exact absurd hkb hnot
        · rintro (⟨c0, hc0, rfl⟩ | ⟨hnot, _, rfl⟩)
          · exact absurd (List.mem_map_of_mem Prod.fst hc0) hk
          · left
            refine ⟨1, (bump_mem_self_of_not_mem m w 1 hk).mpr rfl, ?_⟩
            rw [List.count_cons_self]
            omega
    · have hbk : w ∈ (bump m t).map Prod.fst ↔ w ∈ m.map Prod.fst := by
        by_cases hk : t ∈ m.map Prod.fst
        · rw [bump_keys_of_mem m t hk]
        · rw [bump_keys_of_not_mem m t hk]
          simp [hwt]
      have hcount : (t :: l).count w = l.count w := by
        rw [List.count_cons]
        have hb : (w == t) = false := by simpa using hwt
        have hb2 : ¬t = w := fun h => hwt h.symm
        simp [hb, hb2]
      rw [hcount]
      constructor
      · rintro (⟨c0, hc0, rfl⟩ | ⟨hnot, hwl, rfl⟩)
        · exact Or.inl ⟨c0, (bump_mem_ne m c0 hwt).mp hc0, rfl⟩
        · exact Or.inr ⟨fun hm => hnot (hbk.mpr hm), List.mem_cons_of_mem _ hwl, rfl⟩
      · rintro (⟨c0, hc0, rfl⟩ | ⟨hnot, hwl, rfl⟩)
        · exact Or.inl ⟨c0, (bump_mem_ne m c0 hwt).mpr hc0, rfl⟩
        · have hwl' : w ∈ l := by
            rcases List.mem_cons.mp hwl with h | h
            · exact absurd h hwt
            · exact h
          exact Or.inr ⟨fun hm => hnot (hbk.mp hm), hwl', rfl⟩

/-- The counter's keys are distinct. -/
theorem counterItems_nodup (s : List (List String)) :
    ((counterItems s).map Prod.fst).Nodup :=
  (foldl_bump_spec s.flatten [] (by simp)).1

/-- The counter's items are exactly the corpus tokens with their
multiplicities. -/
theorem counterItems_mem (s : List (List String)) (w : String) (c : Nat) :
    ((w, c) ∈ counterItems s ↔ (w ∈ s.flatten ∧ c = s.flatten.count w)) := by
  have h := (foldl_bump_spec s.flatten [] (by simp)).2 w c
  simpa using h

/-! ## Dict-comprehension lemmas for Claim C2 -/

theorem withIds_map_fst (ws : List String) : ∀ n, (withIds n ws).map Prod.fst = ws := by
  induction ws with
  | nil => intro n; rfl
  | cons w t ih => intro n; simp [withIds, ih]

theorem withIds_length (ws : List String) : ∀ n, (withIds n ws).length = ws.length := by
  induction ws with
  | nil => intro n; rfl
  | cons w t ih => intro n; simp [withIds, ih]

theorem withIds_append (xs ys : List String) :
    ∀ n, withIds n (xs ++ ys) = withIds n xs ++ withIds (n + xs.length) ys := by
  induction xs with
  | nil => intro n; simp [withIds]
  | cons x t ih =>
    intro n
    show (x, (n : Int)) :: withIds (n + 1) (t ++ ys) =
      ((x, (n : Int)) :: withIds (n + 1) t) ++ withIds (n + (t.length + 1)) ys
    rw [ih (n + 1), show n + 1 + t.length = n + (t.length + 1) from by omega]
    rfl

theorem lookup_withIds_not_mem {ws : List String} {k : String} (h : k ∉ ws) :
    ∀ n, (withIds n ws).lookup k = none := by
  induction ws with
  | nil => intro n; rfl
  | cons w t ih =>
    intro n
    have hkw : (k == w) = false := by
      simp only [List.mem_cons, not_or] at h
      simpa using h.1
    simp only [withIds, List.lookup, hkw]
    exact ih (fun hm => h (List.mem_cons_of_mem _ hm)) (n + 1)

theorem lookup_withIds_get {ws : List String} (hnd : ws.Nodup) :
    ∀ n k (hk : k < ws.length),
      (withIds n ws).lookup (ws.get ⟨k, hk⟩) = some (((n + k : Nat) : Int)) := by
  induction ws with
  | nil => intro n k hk; cases hk
  | cons w t ih =>
    intro n k hk
    match k with
    | 0 => simp [withIds, List.lookup]
    | Nat.succ j =>
      have hj : j < t.length := Nat.lt_of_succ_lt_succ hk
      have hmem : t.get ⟨j, hj⟩ ∈ t := List.get_mem t j hj
      have hwne : (t.get ⟨j, hj⟩ == w) = false := by
        have : w ∉ t := (List.nodup_cons.mp hnd).1
        have hne : t.get ⟨j, hj⟩ ≠ w := fun he => this (he ▸ hmem)
        simpa using hne
      simp only [withIds, List.lookup, List.get_cons_succ, hwne]
      rw [ih (List.nodup_cons.mp hnd).2 (n + 1) j hj]
      congr 1
      omega

theorem lookup_withIds_isSome {ws : List String} {k : String} (h : k ∈ ws) :
    ∀ n, ((withIds n ws).lookup k).isSome = true := by
  induction ws with
  | nil => cases h
  | cons w t ih =>
    intro n
    rcases List.mem_cons.mp h with rfl | hm
    · simp [withIds, List.lookup]
    · by_cases hkw : k = w
      · subst hkw; simp [withIds, List.lookup]
      · have hb : (k == w) = false := by simpa using hkw
        simp only [withIds, List.lookup, hb]
        exact ih hm (n + 1)

theorem foldl_dictInsert_append (l : List (String × Int)) :
    ∀ m, ((m ++ l).map Prod.fst).Nodup →
      l.foldl (fun m p => dictInsert m p.1 p.2) m = m ++ l := by
  induction l with
  | nil => intro m _; simp
  | cons p t ih =>
    intro m hnd
    obtain ⟨k, v⟩ := p
    have hkm : k ∉ m.map Prod.fst := by
      rw [List.map_append] at hnd
      have hdisj := (List.nodup_append.mp hnd).2.2
      intro hk
      exact hdisj hk (by simp)
    have hins : dictInsert m k v = m ++ [(k, v)] := by
      have hany : m.any (fun q => q.1 = k) = false := by
        simp only [List.any_eq_false, decide_eq_true_eq]
        intro q hq hqk
        exact hkm (hqk ▸ List.mem_map_of_mem Prod.fst hq)
      rw [dictInsert, if_neg (by simp [hany])]
    rw [List.foldl_cons]
    simp only
    rw [hins, ih (m ++ [(k, v)]) (by simpa using hnd), List.append_assoc]
    rfl

theorem dictOfPairs_of_nodup (l : List (String × Int))
    (h : (l.map Prod.fst).Nodup) : dictOfPairs l = l := by
  have := foldl_dictInsert_append l [] (by simpa using h)
  simpa [dictOfPairs] using this

/-! ## Claim C2: `create_vocab` structure

The claim as stated is false: `vocab_symbols_set` is computed but never
used, so a corpus token equal to a reserved symbol re-enters the
enumeration and the dict comprehension overwrites the reserved id.  With
the extra hypothesis that no reserved symbol occurs as a corpus token,
the claimed structure holds. -/

/-- C2 counterexample: on the corpus whose one line is five `"<pad>"`
tokens (with the default `min_count = 5`, `num_words = 100000`),
`"<pad>"` does not receive the fixed id 0 — the dict comprehension
overwrites it with id 4. -/
theorem claim_C2_counterexample :
    ¬ ((create_vocab [["<pad>", "<pad>", "<pad>", "<pad>", "<pad>"]]
        5 100000).lookup "<pad>" = some 0) := by
  decide

/-- C2 (amended): provided no reserved symbol occurs as a corpus token,
`create_vocab` maps `<pad>, <unk>, <s>, </s>` to the fixed ids
0, 1, 2, 3; a corpus token is in the mapping iff its corpus frequency is
at least `min_count` and it is among the first `num_words` tokens of the
decreasing-frequency order; the mapping has at most `num_words + 4`
entries; the remaining ids are assigned consecutively from 4 along that
order, whose frequencies are nonincreasing. -/
theorem claim_C2_create_vocab_amended (corpus : List (List String))
    (min_count num_words : Nat)
    (hres : ∀ line ∈ corpus, ∀ tok ∈ line, tok ∉ VOCAB_SYMBOLS) :
    ((create_vocab corpus min_count num_words).lookup "<pad>" = some 0 ∧
     (create_vocab corpus min_count num_words).lookup "<unk>" = some 1 ∧
     (create_vocab corpus min_count num_words).lookup "<s>" = some 2 ∧
     (create_vocab corpus min_count num_words).lookup "</s>" = some 3) ∧
    (∀ tok, (∃ line ∈ corpus, tok ∈ line) →
      (((create_vocab corpus min_count num_words).lookup tok).isSome = true ↔
        (min_count ≤ corpus.flatten.count tok ∧
         tok ∈ ((pruned_vocab (counterItems corpus) min_count).map
           Prod.snd).take num_words))) ∧
    (create_vocab corpus min_count num_words).length ≤ num_words + 4 ∧
    (∀ k (hk : k < (((pruned_vocab (counterItems corpus) min_count).map
        Prod.snd).take num_words).length),
      (create_vocab corpus min_count num_words).lookup
        ((((pruned_vocab (counterItems corpus) min_count).map
          Prod.snd).take num_words).get ⟨k, hk⟩) = some (((4 + k : Nat) : Int))) ∧
    (∀ k1 k2 (hk1 : k1 < (((pruned_vocab (counterItems corpus) min_count).map
        Prod.snd).take num_words).length)
      (hk2 : k2 < (((pruned_vocab (counterItems corpus) min_count).map
        Prod.snd).take num_words).length), k1 ≤ k2 →
      corpus.flatten.count
        ((((pruned_vocab (counterItems corpus) min_count).map
          Prod.snd).take num_words).get ⟨k2, hk2⟩) ≤
      corpus.flatten.count
        ((((pruned_vocab (counterItems corpus) min_count).map
          Prod.snd).take num_words).get ⟨k1, hk1⟩)) := by
  set items := counterItems corpus with hitems
  set filtered := items.filter (fun p => min_count ≤ p.2) with hfiltered
  set sortedP := pruned_vocab items min_count with hsortedP
  set keptFull := sortedP.map Prod.snd with hkeptFull
  set kept := keptFull.take num_words with hkept
  have hIkeys : (items.map Prod.fst).Nodup := counterItems_nodup corpus
  have hFkeys : (filtered.map Prod.fst).Nodup :=
    List.Nodup.sublist ((List.filter_sublist items).map Prod.fst) hIkeys
  have hswap : (filtered.map (fun p => (p.2, p.1))).map Prod.snd =
      filtered.map Prod.fst := by
    rw [List.map_map]; rfl
  have hsp : sortedP.Perm (filtered.map (fun p => (p.2, p.1))) :=
    List.perm_insertionSort _ _
  have hKFperm : keptFull.Perm (filtered.map Prod.fst) := by
    rw [hkeptFull, ← hswap]
    exact hsp.map Prod.snd
  have hKFnodup : keptFull.Nodup := hKFperm.nodup_iff.mpr hFkeys
  have hkept_nodup : kept.Nodup :=
    List.Nodup.sublist (List.take_sublist _ _) hKFnodup
  have hpair : ∀ q ∈ sortedP, q.2 ∈ corpus.flatten ∧
      min_count ≤ q.1 ∧ q.1 = corpus.flatten.count q.2 := by
    intro q hq
    have hq' : q ∈ filtered.map (fun p => (p.2, p.1)) := hsp.mem_iff.mp hq
    obtain ⟨p, hp, hpq⟩ := List.mem_map.mp hq'
    obtain ⟨hpi, hpc⟩ := List.mem_filter.mp hp
    have hpc' : min_count ≤ p.2 := by simpa using hpc
    have hp1 : q.1 = p.2 := (congrArg Prod.fst hpq).symm
    have hp2 : q.2 = p.1 := (congrArg Prod.snd hpq).symm
    have hpm : (p.1, p.2) ∈ items := by simpa using hpi
    have hcount := (counterItems_mem corpus p.1 p.2).mp hpm
    refine ⟨by rw [hp2]; exact hcount.1, by rw [hp1]; exact hpc', ?_⟩
    rw [hp1, hp2]
    exact hcount.2
  have hkept_flat : ∀ w ∈ kept, w ∈ corpus.flatten ∧
      min_count ≤ corpus.flatten.count w := by
    intro w hw
    have hwF : w ∈ keptFull := List.mem_of_mem_take hw
    obtain ⟨q, hq, hq2⟩ := List.mem_map.mp (hkeptFull ▸ hwF)
    obtain ⟨h1, h2, h3⟩ := hpair q hq
    exact ⟨hq2 ▸ h1, by rw [← hq2, ← h3]; exact h2⟩
  have hkept_not_sym : ∀ w ∈ kept, w ∉ VOCAB_SYMBOLS := by
    intro w hw hsym
    obtain ⟨line, hline, hwl⟩ := List.mem_flatten.mp (hkept_flat w hw).1
    exact hres line hline w hwl hsym
  have hchain_nodup : (VOCAB_SYMBOLS ++ kept).Nodup := by
    rw [List.nodup_append]
    refine ⟨by decide, hkept_nodup, ?_⟩
    intro s hs hsk
    exact hkept_not_sym s hsk hs
  have hv : create_vocab corpus min_count num_words =
      withIds 0 VOCAB_SYMBOLS ++ withIds 4 kept := by
    have h1 : create_vocab corpus min_count num_words =
        dictOfPairs (withIds 0 (VOCAB_SYMBOLS ++ kept)) := by
      rw [hkept, hkeptFull, hsortedP, hitems]
      rfl
    rw [h1, dictOfPairs_of_nodup _ (by rw [withIds_map_fst]; exact hchain_nodup),
      withIds_append]
    rfl
  refine ⟨?_, ?_, ?_, ?_, ?_⟩
  · rw [hv]
    refine ⟨rfl, rfl, rfl, rfl⟩
  · intro tok htok
    obtain ⟨line, hline, htl⟩ := htok
    have htok_not_sym : tok ∉ VOCAB_SYMBOLS := hres line hline tok htl
    rw [hv, List.lookup_append,
      lookup_withIds_not_mem htok_not_sym 0, Option.none_or]
    constructor
    · intro hsome
      have hmem : tok ∈ kept := by
        by_contra hnot
        rw [lookup_withIds_not_mem hnot 4] at hsome
        cases hsome
      exact ⟨(hkept_flat tok hmem).2, hmem⟩
    · intro ⟨_, hmem⟩
      exact lookup_withIds_isSome hmem 4
  · rw [hv, List.length_append, withIds_length, withIds_length]
    have : kept.length ≤ num_words := by
      rw [hkept, List.length_take]
      omega
    simp [VOCAB_SYMBOLS]
    omega
  · intro k hk
    have hw : kept.get ⟨k, hk⟩ ∈ kept := List.get_mem kept _ _
    rw [hv, List.lookup_append,
      lookup_withIds_not_mem (hkept_not_sym _ hw) 0, Option.none_or]
    exact lookup_withIds_get hkept_nodup 4 k hk
  · intro k1 k2 hk1 hk2 hle
    have hsorted : sortedP.Sorted vocabGE := List.sorted_insertionSort _ _
    have hlen : kept.length ≤ sortedP.length := by
      rw [hkept, List.length_take, hkeptFull, List.length_map]
      exact inf_le_right
    have hknw : ∀ k, k < kept.length → k < num_words := by
      intro k hk
      rw [hkept, List.length_take] at hk
      exact lt_of_lt_of_le hk inf_le_left
    have hk1' : k1 < sortedP.length := lt_of_lt_of_le hk1 hlen
    have hk2' : k2 < sortedP.length := lt_of_lt_of_le hk2 hlen
    have hget : ∀ (k : Nat) (hk : k < kept.length) (hk' : k < sortedP.length),
        kept.get ⟨k, hk⟩ = (sortedP.get ⟨k, hk'⟩).2 := by
      intro k hk hk'
      have e1 : kept[k]? = some (kept.get ⟨k, hk⟩) := by
        rw [List.get_eq_getElem]
        exact List.getElem?_eq_getElem hk
      have e2 : sortedP[k]? = some (sortedP.get ⟨k, hk'⟩) := by
        rw [List.get_eq_getElem]
        exact List.getElem?_eq_getElem hk'
      have e3 : kept[k]? = (sortedP[k]?).map Prod.snd := by
        rw [hkept, hkeptFull, List.getElem?_take_of_lt (hknw k hk),
          List.getElem?_map]
      rw [e1, e2] at e3
      exact Option.some.inj e3
    have hc : ∀ (k : Nat) (hk' : k < sortedP.length),
        corpus.flatten.count (sortedP.get ⟨k, hk'⟩).2 =
          (sortedP.get ⟨k, hk'⟩).1 := by
      intro k hk'
      exact ((hpair _ (List.get_mem sortedP k hk')).2.2).symm
    rw [hget k1 hk1 hk1', hget k2 hk2 hk2', hc k1 hk1', hc k2 hk2']
    rcases Nat.lt_or_ge k1 k2 with hlt | hge
    · have hrel : vocabGE (sortedP.get ⟨k1, hk1'⟩) (sortedP.get ⟨k2, hk2'⟩) :=
        hsorted.rel_get_of_lt hlt
      rcases hrel with h | ⟨h, _⟩
      · exact le_of_lt h
      · exact le_of_eq h
    · have heq : k1 = k2 := le_antisymm hle hge
      subst heq
      exact le_refl _

/-- C2 witness for the amended claim: a reserved-symbol-free corpus with
`"b"` six times and `"a"` five times at `min_count = 5`,
`num_words = 100000`: the hypothesis holds and the amended structure
follows. -/
theorem claim_C2_witness :
    (∀ line ∈ [["b", "a", "b", "a", "b", "a", "b", "a", "b", "a", "b"]],
      ∀ tok ∈ line, tok ∉ VOCAB_SYMBOLS) ∧
    ((create_vocab [["b", "a", "b", "a", "b", "a", "b", "a", "b", "a", "b"]]
        5 100000).lookup "<pad>" = some 0 ∧
     (create_vocab [["b", "a", "b", "a", "b", "a", "b", "a", "b", "a", "b"]]
        5 100000).lookup "<unk>" = some 1 ∧
     (create_vocab [["b", "a", "b", "a", "b", "a", "b", "a", "b", "a", "b"]]
        5 100000).lookup "<s>" = some 2 ∧
     (create_vocab [["b", "a", "b", "a", "b", "a", "b", "a", "b", "a", "b"]]
        5 100000).lookup "</s>" = some 3) :=
  ⟨by decide,
   (claim_C2_create_vocab_amended
     [["b", "a", "b", "a", "b", "a", "b", "a", "b", "a", "b"]]
     5 100000 (by decide)).1⟩

/-! ## Bucketing lemmas -/

theorem getD_set_self (l : List α) (i : Nat) (a d : α) (h : i < l.length) :
    (l.set i a).getD i d = a := by
  rw [List.getD_eq_getElem?_getD, List.getElem?_set_self h]
  rfl

theorem getD_set_ne (l : List α) {i j : Nat} (a d : α) (h : i ≠ j) :
    (l.set i a).getD j d = l.getD j d := by
  rw [List.getD_eq_getElem?_getD, List.getElem?_set_ne h,
    ← List.getD_eq_getElem?_getD]

theorem bisect_le_length (buckets : List Nat) (x : Nat) :
    bisect_left buckets x ≤ buckets.length :=
  (List.takeWhile_sublist _).length_le

theorem bisect_ge (buckets : List Nat) (x : Nat) :
    ∀ (h : bisect_left buckets x < buckets.length),
      x ≤ buckets.getD (bisect_left buckets x) 0 := by
  induction buckets with
  | nil => intro h; cases h
  | cons b t ih =>
    intro h
    by_cases hb : b < x
    · have hbl : bisect_left (b :: t) x = bisect_left t x + 1 := by
        simp [bisect_left, List.takeWhile, hb]
      rw [hbl]
      rw [hbl] at h
      have ht : bisect_left t x < t.length := by simpa using h
      simpa using ih ht
    · have hbl : bisect_left (b :: t) x = 0 := by
        simp [bisect_left, List.takeWhile, hb]
      rw [hbl]
      simp only [List.getD_cons_zero]
      omega

theorem bisect_le_of_le (buckets : List Nat) (x : Nat) :
    ∀ k (hk : k < buckets.length), x ≤ buckets.get ⟨k, hk⟩ →
      bisect_left buckets x ≤ k := by
  induction buckets with
  | nil => intro k hk; cases hk
  | cons b t ih =>
    intro k hk hx
    by_cases hb : b < x
    · have hbl : bisect_left (b :: t) x = bisect_left t x + 1 := by
        simp [bisect_left, List.takeWhile, hb]
      rw [hbl]
      match k with
      | 0 =>
        simp only [List.get] at hx
        omega
      | Nat.succ j =>
        have hj : j < t.length := Nat.lt_of_succ_lt_succ hk
        have := ih j hj hx
        omega
    · have hbl : bisect_left (b :: t) x = 0 := by
        simp [bisect_left, List.takeWhile, hb]
      rw [hbl]
      exact Nat.zero_le k

theorem listMax_mem (l : List Nat) (h : l ≠ []) : listMax l ∈ l := by
  induction l with
  | nil => exact absurd rfl h
  | cons x t ih =>
    match t with
    | [] => simp [listMax]
    | y :: t2 =>
      rcases max_choice x (listMax (y :: t2)) with hm | hm
      · rw [show listMax (x :: y :: t2) = max x (listMax (y :: t2)) from rfl, hm]
        exact List.mem_cons_self _ _
      · rw [show listMax (x :: y :: t2) = max x (listMax (y :: t2)) from rfl, hm]
        exact List.mem_cons_of_mem _ (ih (by simp))

theorem le_listMax (l : List Nat) (x : Nat) (h : x ∈ l) : x ≤ listMax l := by
  induction l with
  | nil => cases h
  | cons b t ih =>
    rcases List.mem_cons.mp h with rfl | hm
    · exact le_max_left _ _
    · exact le_trans (ih hm) (le_max_right _ _)

theorem fillFold_spec (ps : List (List Int × Int)) (buckets : List Nat) (inv : Int) :
    ∀ st : FillState, st.1.length = buckets.length →
      st.2.1.length = buckets.length →
    ∀ b, b < buckets.length →
    ((ps.foldl (fillStep buckets inv) st).1.getD b [] =
        st.1.getD b [] ++
          (ps.filter (fun p => bisect_left buckets p.1.length = b)).map
            (fun p => padTo (buckets.getD b 0) inv p.1)) ∧
    ((ps.foldl (fillStep buckets inv) st).2.1.getD b [] =
        st.2.1.getD b [] ++
          (ps.filter (fun p => bisect_left buckets p.1.length = b)).map
            (fun p => p.2)) := by
  induction ps with
  | nil => intro st h1 h2 b hb; simp
  | cons p ps ih =>
    intro st h1 h2 b hb
    rw [List.foldl_cons]
    by_cases hd : bisect_left buckets p.1.length = buckets.length
    · have hstep : fillStep buckets inv st p = (st.1, st.2.1, st.2.2 + 1) := by
        rw [fillStep, if_pos hd]
      have hpred : (fun p => decide (bisect_left buckets p.1.length = b)) p = false := by
        simp only [decide_eq_false_iff_not]
        omega
      rw [hstep]
      have hfil : (p :: ps).filter (fun p => bisect_left buckets p.1.length = b) =
          ps.filter (fun p => bisect_left buckets p.1.length = b) := by
        rw [List.filter_cons, if_neg (by simp [hpred])]
      rw [hfil]
      exact ih (st.1, st.2.1, st.2.2 + 1) h1 h2 b hb
    · have hbk : bisect_left buckets p.1.length < buckets.length :=
        lt_of_le_of_ne (bisect_le_length buckets p.1.length) hd
      have hstep : fillStep buckets inv st p =
          (st.1.set (bisect_left buckets p.1.length)
             (st.1.getD (bisect_left buckets p.1.length) [] ++
               [padTo (buckets.getD (bisect_left buckets p.1.length) 0) inv p.1]),
           st.2.1.set (bisect_left buckets p.1.length)
             (st.2.1.getD (bisect_left buckets p.1.length) [] ++ [p.2]),
           st.2.2) := by
        rw [fillStep, if_neg hd]
      rw [hstep]
      have h1' : (st.1.set (bisect_left buckets p.1.length)
          (st.1.getD (bisect_left buckets p.1.length) [] ++
            [padTo (buckets.getD (bisect_left buckets p.1.length) 0) inv p.1])).length =
          buckets.length := by rw [List.length_set, h1]
      have h2' : (st.2.1.set (bisect_left buckets p.1.length)
          (st.2.1.getD (bisect_left buckets p.1.length) [] ++ [p.2])).length =
          buckets.length := by rw [List.length_set, h2]
      obtain ⟨ihd, ihl⟩ := ih
        (st.1.set (bisect_left buckets p.1.length)
           (st.1.getD (bisect_left buckets p.1.length) [] ++
             [padTo (buckets.getD (bisect_left buckets p.1.length) 0) inv p.1]),
         st.2.1.set (bisect_left buckets p.1.length)
           (st.2.1.getD (bisect_left buckets p.1.length) [] ++ [p.2]),
         st.2.2) h1' h2' b hb
      by_cases hbb : bisect_left buckets p.1.length = b
      · subst hbb
        have hfil : (p :: ps).filter (fun p2 =>
            bisect_left buckets p2.1.length = bisect_left buckets p.1.length) =
            p :: ps.filter (fun p2 =>
              bisect_left buckets p2.1.length = bisect_left buckets p.1.length) := by
          rw [List.filter_cons, if_pos (by simp)]
        constructor
        · rw [ihd, hfil, getD_set_self _ _ _ _ (h1 ▸ hbk), List.map_cons,
            List.append_assoc]
          rfl
        · rw [ihl, hfil, getD_set_self _ _ _ _ (h2 ▸ hbk), List.map_cons,
            List.append_assoc]
          rfl
      · have hfil : (p :: ps).filter (fun p2 =>
            bisect_left buckets p2.1.length = b) =
            ps.filter (fun p2 => bisect_left buckets p2.1.length = b) := by
          rw [List.filter_cons, if_neg (by simp [hbb])]
        constructor
        · rw [ihd, hfil, getD_set_ne _ _ _ hbb]
        · rw [ihl, hfil, getD_set_ne _ _ _ hbb]

theorem getD_eq_getElem_of_lt (l : List α) (d : α) {i : Nat} (h : i < l.length) :
    l.getD i d = l.get ⟨i, h⟩ := by
  rw [List.getD_eq_getElem?_getD, List.getElem?_eq_getElem h, List.get_eq_getElem]
  rfl

/-- Placement core of `BucketSentenceIter.__init__`: each fitting
sentence lands, padded, in the bucket found by `bisect_left`, with its
label at the same position. -/
theorem fill_place (sentences : List (List Int)) (labels : List Int)
    (buckets : List Nat) (inv : Int)
    (hsort : buckets.Sorted (fun a b => a ≤ b))
    (hlen : labels.length = sentences.length)
    (i : Nat) (hi : i < sentences.length)
    (hne : buckets ≠ [])
    (hfit : (sentences.get ⟨i, hi⟩).length ≤ listMax buckets) :
    bisect_left buckets (sentences.get ⟨i, hi⟩).length < buckets.length ∧
    (sentences.get ⟨i, hi⟩).length ≤
      buckets.getD (bisect_left buckets (sentences.get ⟨i, hi⟩).length) 0 ∧
    (∀ k (hk : k < buckets.length),
      (sentences.get ⟨i, hi⟩).length ≤ buckets.get ⟨k, hk⟩ →
      buckets.getD (bisect_left buckets (sentences.get ⟨i, hi⟩).length) 0 ≤
        buckets.get ⟨k, hk⟩) ∧
    (∃ j : Nat,
      ((fillBuckets sentences labels buckets inv).1.getD
        (bisect_left buckets (sentences.get ⟨i, hi⟩).length) [])[j]? =
        some (padTo
          (buckets.getD (bisect_left buckets (sentences.get ⟨i, hi⟩).length) 0)
          inv (sentences.get ⟨i, hi⟩)) ∧
      ((fillBuckets sentences labels buckets inv).2.1.getD
        (bisect_left buckets (sentences.get ⟨i, hi⟩).length) [])[j]? =
        labels[i]?) := by
  obtain ⟨km, hkm, hkmeq⟩ := List.mem_iff_getElem.mp (listMax_mem buckets hne)
  have hkmle : (sentences.get ⟨i, hi⟩).length ≤ buckets.get ⟨km, hkm⟩ := by
    show (sentences.get ⟨i, hi⟩).length ≤ buckets[km]
    rw [hkmeq]
    exact hfit
  have hble : bisect_left buckets (sentences.get ⟨i, hi⟩).length ≤ km :=
    bisect_le_of_le buckets _ km hkm hkmle
  have hblt : bisect_left buckets (sentences.get ⟨i, hi⟩).length < buckets.length :=
    lt_of_le_of_lt hble hkm
  have hge : (sentences.get ⟨i, hi⟩).length ≤
      buckets.getD (bisect_left buckets (sentences.get ⟨i, hi⟩).length) 0 :=
    bisect_ge buckets _ hblt
  refine ⟨hblt, hge, ?_, ?_⟩
  · intro k hk hxk
    have hbk : bisect_left buckets (sentences.get ⟨i, hi⟩).length ≤ k :=
      bisect_le_of_le buckets _ k hk hxk
    rcases Nat.lt_or_ge (bisect_left buckets (sentences.get ⟨i, hi⟩).length) k
      with hlt | hge2
    · rw [getD_eq_getElem_of_lt buckets 0 hblt]
      exact hsort.rel_get_of_lt hlt
    · have heq : bisect_left buckets (sentences.get ⟨i, hi⟩).length = k :=
        le_antisymm hbk hge2
      rw [getD_eq_getElem_of_lt buckets 0 hblt]
      simp only [List.get_eq_getElem]
      subst heq
      exact le_refl _
  · have hzi : i < (sentences.zip labels).length := by
      rw [List.length_zip]
      omega
    have hzget : (sentences.zip labels)[i] =
        (sentences.get ⟨i, hi⟩, labels.get ⟨i, by omega⟩) := by
      rw [List.getElem_zip, List.get_eq_getElem, List.get_eq_getElem]
    have hpair_mem : (sentences.get ⟨i, hi⟩, labels.get ⟨i, by omega⟩) ∈
        (sentences.zip labels).filter
          (fun p => bisect_left buckets p.1.length =
            bisect_left buckets (sentences.get ⟨i, hi⟩).length) := by
      refine List.mem_filter.mpr ⟨?_, by simp⟩
      rw [← hzget]
      exact List.getElem_mem hzi
    obtain ⟨j, hj, hjeq⟩ := List.mem_iff_getElem.mp hpair_mem
    have hspec := fillFold_spec (sentences.zip labels) buckets inv
      (buckets.map (fun _ => []), buckets.map (fun _ => []), 0)
      (by rw [List.length_map]) (by rw [List.length_map])
      (bisect_left buckets (sentences.get ⟨i, hi⟩).length) hblt
    have hinit : ∀ b : Nat, ((buckets.map
        (fun _ => ([] : List (List Int)))).getD b []) = [] := by
      intro b
      rw [List.getD_eq_getElem?_getD, List.getElem?_map]
      cases buckets[b]? <;> rfl
    have hinit2 : ∀ b : Nat, ((buckets.map
        (fun _ => ([] : List Int))).getD b []) = [] := by
      intro b
      rw [List.getD_eq_getElem?_getD, List.getElem?_map]
      cases buckets[b]? <;> rfl
    obtain ⟨hdata, hlabs⟩ := hspec
    refine ⟨j, ?_, ?_⟩
    · show (((sentences.zip labels).foldl (fillStep buckets inv)
          (buckets.map (fun _ => ([] : List (List Int))),
           buckets.map (fun _ => ([] : List Int)), 0)).1.getD
          (bisect_left buckets (sentences.get ⟨i, hi⟩).length) [])[j]? =
        some (padTo
          (buckets.getD (bisect_left buckets (sentences.get ⟨i, hi⟩).length) 0)
          inv (sentences.get ⟨i, hi⟩))
      rw [hdata, hinit, List.nil_append, List.getElem?_map,
        List.getElem?_eq_getElem hj, hjeq]
      rfl
    · show (((sentences.zip labels).foldl (fillStep buckets inv)
          (buckets.map (fun _ => ([] : List (List Int))),
           buckets.map (fun _ => ([] : List Int)), 0)).2.1.getD
          (bisect_left buckets (sentences.get ⟨i, hi⟩).length) [])[j]? =
        labels[i]?
      rw [hlabs, hinit2, List.nil_append, List.getElem?_map,
        List.getElem?_eq_getElem hj, hjeq]
      rw [List.getElem?_eq_getElem (by omega : i < labels.length),
        List.get_eq_getElem]
      rfl

/-- C1: for every sentence list, positive batch size and the resulting
sorted bucket list, `__init__` places each sentence whose length is at
most the largest bucket into the smallest bucket whose length is at
least the sentence's length, stores it right-padded with
`invalid_label` to exactly that bucket's length, and keeps its label at
the same position in that bucket's label list. -/
theorem claim_C1_bucket_placement (sentences : List (List Int))
    (labels : List Int) (batch_size : Nat) (buckets0 : Option (List Nat))
    (invalid_label : Int) (hbs : 0 < batch_size)
    (hlen : labels.length = sentences.length) (i : Nat)
    (hi : i < sentences.length)
    (hne : (initState sentences labels batch_size buckets0 invalid_label).buckets ≠ [])
    (hfit : (sentences.get ⟨i, hi⟩).length ≤
      listMax (initState sentences labels batch_size buckets0 invalid_label).buckets) :
    bisect_left (initState sentences labels batch_size buckets0 invalid_label).buckets
        (sentences.get ⟨i, hi⟩).length <
      (initState sentences labels batch_size buckets0 invalid_label).buckets.length ∧
    (sentences.get ⟨i, hi⟩).length ≤
      (initState sentences labels batch_size buckets0 invalid_label).buckets.getD
        (bisect_left
          (initState sentences labels batch_size buckets0 invalid_label).buckets
          (sentences.get ⟨i, hi⟩).length) 0 ∧
    (∀ k (hk : k <
        (initState sentences labels batch_size buckets0 invalid_label).buckets.length),
      (sentences.get ⟨i, hi⟩).length ≤
        (initState sentences labels batch_size buckets0 invalid_label).buckets.get
          ⟨k, hk⟩ →
      (initState sentences labels batch_size buckets0 invalid_label).buckets.getD
        (bisect_left
          (initState sentences labels batch_size buckets0 invalid_label).buckets
          (sentences.get ⟨i, hi⟩).length) 0 ≤
        (initState sentences labels batch_size buckets0 invalid_label).buckets.get
          ⟨k, hk⟩) ∧
    (∃ j : Nat,
      ((initState sentences labels batch_size buckets0 invalid_label).nddata.getD
        (bisect_left
          (initState sentences labels batch_size buckets0 invalid_label).buckets
          (sentences.get ⟨i, hi⟩).length) [])[j]? =
        some (padTo
          ((initState sentences labels batch_size buckets0 invalid_label).buckets.getD
            (bisect_left
              (initState sentences labels batch_size buckets0 invalid_label).buckets
              (sentences.get ⟨i, hi⟩).length) 0)
          invalid_label (sentences.get ⟨i, hi⟩)) ∧
      ((initState sentences labels batch_size buckets0 invalid_label).ndlabel.getD
        (bisect_left
          (initState sentences labels batch_size buckets0 invalid_label).buckets
          (sentences.get ⟨i, hi⟩).length) [])[j]? =
        labels[i]?) := by
  have hsort : (initState sentences labels batch_size buckets0
      invalid_label).buckets.Sorted (fun a b => a ≤ b) := by
    show (List.insertionSort (fun a b => a ≤ b)
      (match buckets0 with
       | none => defaultBuckets sentences batch_size
       | some bs => bs)).Sorted (fun a b => a ≤ b)
    exact List.sorted_insertionSort _ _
  exact fill_place sentences labels
    (initState sentences labels batch_size buckets0 invalid_label).buckets
    invalid_label hsort hlen i hi hne hfit

/-- C1 witness: sentences `[[7], [8, 9]]`, labels `[1, 2]`, `batch_size
1`, explicit buckets `[2, 1]` (sorted to `[1, 2]`), default
`invalid_label 0`; sentence 0 (length 1) goes to bucket 0 of length 1. -/
theorem claim_C1_witness :
    0 < 1 ∧ ([1, 2] : List Int).length = ([[7], [8, 9]] : List (List Int)).length ∧
    (initState [[7], [8, 9]] [1, 2] 1 (some [2, 1]) 0).buckets ≠ [] ∧
    (([[7], [8, 9]] : List (List Int)).get ⟨0, by decide⟩).length ≤
      listMax (initState [[7], [8, 9]] [1, 2] 1 (some [2, 1]) 0).buckets ∧
    (∃ j : Nat,
      ((initState [[7], [8, 9]] [1, 2] 1 (some [2, 1]) 0).nddata.getD
        (bisect_left (initState [[7], [8, 9]] [1, 2] 1 (some [2, 1]) 0).buckets
          (([[7], [8, 9]] : List (List Int)).get ⟨0, by decide⟩).length) [])[j]? =
        some (padTo
          ((initState [[7], [8, 9]] [1, 2] 1 (some [2, 1]) 0).buckets.getD
            (bisect_left (initState [[7], [8, 9]] [1, 2] 1 (some [2, 1]) 0).buckets
              (([[7], [8, 9]] : List (List Int)).get ⟨0, by decide⟩).length) 0)
          0 (([[7], [8, 9]] : List (List Int)).get ⟨0, by decide⟩)) ∧
      ((initState [[7], [8, 9]] [1, 2] 1 (some [2, 1]) 0).ndlabel.getD
        (bisect_left (initState [[7], [8, 9]] [1, 2] 1 (some [2, 1]) 0).buckets
          (([[7], [8, 9]] : List (List Int)).get ⟨0, by decide⟩).length) [])[j]? =
        ([1, 2] : List Int)[0]?) :=
  ⟨by decide, by decide, by decide, by decide,
   (claim_C1_bucket_placement [[7], [8, 9]] [1, 2] 1 (some [2, 1]) 0
     (by decide) (by decide) 0 (by decide) (by decide) (by decide)).2.2.2⟩

/-! ## Permutation lemmas for the iterator -/

theorem filterMap_range_getElem (xs : List α) :
    (List.range xs.length).filterMap (fun k => xs[k]?) = xs := by
  induction xs with
  | nil => rfl
  | cons a t ih =>
    rw [show (a :: t).length = t.length + 1 from rfl, List.range_succ_eq_map,
      List.filterMap_cons, List.getElem?_cons_zero]
    show a :: List.filterMap (fun k => (a :: t)[k]?)
        ((List.range t.length).map Nat.succ) = a :: t
    rw [List.filterMap_map]
    have h2 : ((fun k => (a :: t)[k]?) ∘ Nat.succ) = (fun k => t[k]?) := by
      funext k
      exact List.getElem?_cons_succ
    rw [h2, ih]

theorem applyPerm_range (xs : List α) :
    applyPerm (List.range xs.length) xs = xs :=
  filterMap_range_getElem xs

theorem applyPerm_perm (p : List Nat) (xs : List α)
    (h : p.Perm (List.range xs.length)) : (applyPerm p xs).Perm xs := by
  have h1 : (applyPerm p xs).Perm (applyPerm (List.range xs.length) xs) :=
    List.Perm.filterMap _ h
  rw [applyPerm_range] at h1
  exact h1

theorem applyPerm_length (p : List Nat) (xs : List α)
    (h : p.Perm (List.range xs.length)) :
    (applyPerm p xs).length = xs.length :=
  (applyPerm_perm p xs h).length_eq

theorem mem_applyPerm {p : List Nat} {xs : List α} {a : α}
    (h : a ∈ applyPerm p xs) : a ∈ xs := by
  obtain ⟨k, _, hke⟩ := List.mem_filterMap.mp h
  obtain ⟨hlt, heq⟩ := List.getElem?_eq_some.mp hke
  exact heq ▸ List.getElem_mem hlt

theorem applyPerm_cons (k : Nat) (p : List Nat) (xs : List α) :
    applyPerm (k :: p) xs =
      match xs[k]? with
      | none => applyPerm p xs
      | some a => a :: applyPerm p xs :=
  List.filterMap_cons _ _ _

theorem applyPerm_zip (p : List Nat) (xs : List α) (ys : List β)
    (hlen : xs.length = ys.length) :
    (applyPerm p xs).zip (applyPerm p ys) = applyPerm p (xs.zip ys) := by
  induction p with
  | nil => rfl
  | cons k p ih =>
    by_cases hk : k < xs.length
    · have hky : k < ys.length := hlen ▸ hk
      have hkz : k < (xs.zip ys).length := by
        rw [List.length_zip]
        omega
      have e1 : applyPerm (k :: p) xs = xs.get ⟨k, hk⟩ :: applyPerm p xs := by
        rw [applyPerm_cons, List.getElem?_eq_getElem hk, List.get_eq_getElem]
      have e2 : applyPerm (k :: p) ys = ys.get ⟨k, hky⟩ :: applyPerm p ys := by
        rw [applyPerm_cons, List.getElem?_eq_getElem hky, List.get_eq_getElem]
      have e3 : applyPerm (k :: p) (xs.zip ys) =
          (xs.get ⟨k, hk⟩, ys.get ⟨k, hky⟩) :: applyPerm p (xs.zip ys) := by
        rw [applyPerm_cons, List.getElem?_eq_getElem hkz]
        rw [show (xs.zip ys)[k] = (xs[k], ys[k]) from List.getElem_zip]
        rw [List.get_eq_getElem, List.get_eq_getElem]
      rw [e1, e2, e3, List.zip_cons_cons, ih]
    · have hky : ¬ k < ys.length := by omega
      have hkz : ¬ k < (xs.zip ys).length := by
        rw [List.length_zip]
        omega
      have e1 : applyPerm (k :: p) xs = applyPerm p xs := by
        rw [applyPerm_cons, List.getElem?_eq_none (by omega)]
      have e2 : applyPerm (k :: p) ys = applyPerm p ys := by
        rw [applyPerm_cons, List.getElem?_eq_none (by omega)]
      have e3 : applyPerm (k :: p) (xs.zip ys) = applyPerm p (xs.zip ys) := by
        rw [applyPerm_cons, List.getElem?_eq_none (by omega)]
      rw [e1, e2, e3, ih]

theorem range_map_getD (l : List α) (d : α) :
    (List.range l.length).map (fun i => l.getD i d) = l := by
  induction l with
  | nil => rfl
  | cons a t ih =>
    rw [show (a :: t).length = t.length + 1 from rfl, List.range_succ_eq_map]
    rw [List.map_cons, List.map_map]
    have h2 : ((fun i => (a :: t).getD i d) ∘ Nat.succ) =
        (fun i => t.getD i d) := by
      funext k
      rfl
    rw [h2, ih]
    rfl

theorem range_map_getD_lt (f : Nat → α) (n : Nat) (d : α) {i : Nat} (h : i < n) :
    ((List.range n).map f).getD i d = f i := by
  rw [List.getD_eq_getElem?_getD, List.getElem?_map,
    List.getElem?_eq_getElem (by simpa using h : i < (List.range n).length)]
  rw [List.getElem_range]
  rfl

/-! ## `makeIdx` lemmas -/

theorem mem_makeIdx (data : List (List (List Int))) (bs : Nat) (pr : Nat × Nat) :
    pr ∈ makeIdx data bs ↔ pr.1 < data.length ∧
      ∃ k, k < (data.getD pr.1 []).length / bs ∧ pr.2 = k * bs := by
  constructor
  · intro h
    obtain ⟨i, hi, hpr⟩ := List.mem_flatMap.mp h
    obtain ⟨j, hj, hje⟩ := List.mem_map.mp hpr
    obtain ⟨k, hk, hkj⟩ := List.mem_map.mp hj
    have hi' : i < data.length := List.mem_range.mp hi
    have hk' : k < (data.getD i []).length / bs := List.mem_range.mp hk
    have h1 : pr.1 = i := (congrArg Prod.fst hje).symm
    have h2 : pr.2 = j := (congrArg Prod.snd hje).symm
    subst h1
    exact ⟨hi', k, hk', by rw [h2, ← hkj]⟩
  · intro ⟨h1, k, hk, h2⟩
    refine List.mem_flatMap.mpr ⟨pr.1, List.mem_range.mpr h1, ?_⟩
    refine List.mem_map.mpr ⟨pr.2, ?_, ?_⟩
    · exact List.mem_map.mpr ⟨k, List.mem_range.mpr hk, h2.symm⟩
    · exact Prod.ext rfl rfl

theorem flatMap_range_if (n : Nat) (b : Nat) (L : List γ) :
    (List.range n).flatMap (fun i => if i = b then L else []) =
      if b < n then L else [] := by
  induction n with
  | zero => simp
  | succ n ih =>
    rw [List.range_succ, List.flatMap_append, ih]
    rcases Nat.lt_trichotomy b n with h | h | h
    · rw [if_pos h, if_pos (by omega)]
      rw [show (List.flatMap [n] fun i => if i = b then L else []) = [] by
        simp [List.flatMap_cons]
        omega]
      rw [List.append_nil]
    · subst h
      rw [if_neg (by omega), if_pos (by omega)]
      simp [List.flatMap_cons]
    · rw [if_neg (by omega), if_neg (by omega)]
      rw [show (List.flatMap [n] fun i => if i = b then L else []) = [] by
        simp [List.flatMap_cons]
        omega]
      rfl

theorem filter_makeIdx (data : List (List (List Int))) (bs : Nat) (b : Nat)
    (hb : b < data.length) :
    (makeIdx data bs).filter (fun pr => pr.1 = b) =
      (bucketIdx (data.getD b []).length bs).map (fun j => (b, j)) := by
  rw [makeIdx, List.filter_flatMap]
  have hin : ∀ i : Nat,
      (((bucketIdx (data.getD i []).length bs).map (fun j => (i, j))).filter
        (fun pr => pr.1 = b)) =
      if i = b then (bucketIdx (data.getD b []).length bs).map (fun j => (b, j))
      else [] := by
    intro i
    rw [List.filter_map]
    by_cases hib : i = b
    · subst hib
      rw [if_pos rfl]
      have : ((fun pr : Nat × Nat => decide (pr.1 = i)) ∘ (fun j => (i, j))) =
          (fun _ => true) := by
        funext j
        simp
      rw [this, List.filter_true]
    · rw [if_neg hib]
      have : ((fun pr : Nat × Nat => decide (pr.1 = b)) ∘ (fun j => (i, j))) =
          (fun _ => false) := by
        funext j
        simp [hib]
      rw [this, List.filter_false, List.map_nil]
  rw [show (fun i => (((bucketIdx (data.getD i []).length bs).map
      (fun j => (i, j))).filter (fun pr => pr.1 = b))) =
      (fun i => if i = b then
        (bucketIdx (data.getD b []).length bs).map (fun j => (b, j))
      else []) from funext hin]
  rw [flatMap_range_if, if_pos hb]

theorem length_bucketIdx (n bs : Nat) : (bucketIdx n bs).length = n / bs := by
  rw [bucketIdx, List.length_map, List.length_range]

theorem length_makeIdx (data : List (List (List Int))) (bs : Nat) :
    (makeIdx data bs).length =
      (data.map (fun buck => buck.length / bs)).sum := by
  rw [makeIdx, List.length_flatMap]
  have h1 : (List.length ∘ fun i =>
      (bucketIdx (data.getD i []).length bs).map (fun j => (i, j))) =
      ((fun buck : List (List Int) => buck.length / bs) ∘ (fun i => data.getD i [])) := by
    funext i
    show ((bucketIdx (data.getD i []).length bs).map (fun j => (i, j))).length = _
    rw [List.length_map, length_bucketIdx]
    rfl
  rw [h1, ← List.map_map, range_map_getD]

theorem flatMap_congr_mem (l : List α) (f g : α → List β)
    (h : ∀ a ∈ l, f a = g a) : l.flatMap f = l.flatMap g := by
  induction l with
  | nil => rfl
  | cons a t ih =>
    rw [List.flatMap_cons, List.flatMap_cons, h a (List.mem_cons_self _ _),
      ih (fun b hb => h b (List.mem_cons_of_mem _ hb))]

theorem makeIdx_congr (d1 d2 : List (List (List Int))) (bs : Nat)
    (hL : d1.length = d2.length)
    (h : ∀ i, i < d1.length → (d1.getD i []).length = (d2.getD i []).length) :
    makeIdx d1 bs = makeIdx d2 bs := by
  rw [makeIdx, makeIdx, hL]
  apply flatMap_congr_mem
  intro i hi
  have hi2 : i < d2.length := List.mem_range.mp hi
  have hi1 : i < d1.length := by omega
  rw [h i hi1]

/-! ## Iterator state invariant -/

theorem padTo_length (L : Nat) (inv : Int) (s : List Int) (h : s.length ≤ L) :
    (padTo L inv s).length = L := by
  rw [padTo, List.length_append, List.length_replicate]
  omega

theorem fillFold_lengths (ps : List (List Int × Int)) (buckets : List Nat)
    (inv : Int) : ∀ st : FillState,
    (ps.foldl (fillStep buckets inv) st).1.length = st.1.length ∧
    (ps.foldl (fillStep buckets inv) st).2.1.length = st.2.1.length := by
  induction ps with
  | nil => intro st; exact ⟨rfl, rfl⟩
  | cons p ps ih =>
    intro st
    rw [List.foldl_cons]
    obtain ⟨ih1, ih2⟩ := ih (fillStep buckets inv st p)
    rw [ih1, ih2]
    by_cases hd : bisect_left buckets p.1.length = buckets.length
    · rw [fillStep, if_pos hd]
      exact ⟨rfl, rfl⟩
    · rw [fillStep, if_neg hd]
      exact ⟨List.length_set _ _ _, List.length_set _ _ _⟩

/-- The invariant the iterator maintains: fixed batch size and buckets,
per-bucket label/data length parity, all rows padded to their bucket's
length, and `idx` a permutation of the canonical batch-start list of the
current bucket contents. -/
def GoodState (bs : Nat) (bks : List Nat) (s : IterState) : Prop :=
  s.batch_size = bs ∧
  s.buckets = bks ∧
  s.ndlabel.length = s.nddata.length ∧
  s.nddata.length = bks.length ∧
  (∀ i, i < s.nddata.length →
    (s.ndlabel.getD i []).length = (s.nddata.getD i []).length) ∧
  (∀ i, i < s.nddata.length →
    ∀ row ∈ s.nddata.getD i [], row.length = bks.getD i 0) ∧
  s.idx.Perm (makeIdx s.nddata bs)

theorem initState_good (sentences : List (List Int)) (labels : List Int)
    (bs : Nat) (buckets0 : Option (List Nat)) (inv : Int) :
    GoodState bs (initState sentences labels bs buckets0 inv).buckets
      (initState sentences labels bs buckets0 inv) := by
  set B := (initState sentences labels bs buckets0 inv).buckets with hB
  have hfd := fillFold_lengths (sentences.zip labels) B inv
    (B.map (fun _ => []), B.map (fun _ => []), 0)
  have hd_len : (initState sentences labels bs buckets0 inv).nddata.length =
      B.length := by
    show ((sentences.zip labels).foldl (fillStep B inv)
      (B.map (fun _ => []), B.map (fun _ => []), 0)).1.length = B.length
    rw [hfd.1, List.length_map]
  have hl_len : (initState sentences labels bs buckets0 inv).ndlabel.length =
      B.length := by
    show ((sentences.zip labels).foldl (fillStep B inv)
      (B.map (fun _ => []), B.map (fun _ => []), 0)).2.1.length = B.length
    rw [hfd.2, List.length_map]
  have hinit1 : ∀ b : Nat,
      ((B.map (fun _ => ([] : List (List Int)))).getD b []) = [] := by
    intro b
    rw [List.getD_eq_getElem?_getD, List.getElem?_map]
    cases B[b]? <;> rfl
  have hinit2 : ∀ b : Nat,
      ((B.map (fun _ => ([] : List Int))).getD b []) = [] := by
    intro b
    rw [List.getD_eq_getElem?_getD, List.getElem?_map]
    cases B[b]? <;> rfl
  have hchar : ∀ b, b < B.length →
      ((initState sentences labels bs buckets0 inv).nddata.getD b [] =
        ((sentences.zip labels).filter
          (fun p => bisect_left B p.1.length = b)).map
          (fun p => padTo (B.getD b 0) inv p.1)) ∧
      ((initState sentences labels bs buckets0 inv).ndlabel.getD b [] =
        ((sentences.zip labels).filter
          (fun p => bisect_left B p.1.length = b)).map (fun p => p.2)) := by
    intro b hb
    have := fillFold_spec (sentences.zip labels) B inv
      (B.map (fun _ => []), B.map (fun _ => []), 0)
      (by rw [List.length_map]) (by rw [List.length_map]) b hb
    rw [hinit1, hinit2, List.nil_append, List.nil_append] at this
    exact this
  refine ⟨rfl, rfl, by rw [hd_len, hl_len], hd_len, ?_, ?_, ?_⟩
  · intro i hi
    have hi' : i < B.length := by rw [← hd_len]; exact hi
    obtain ⟨h1, h2⟩ := hchar i hi'
    rw [h1, h2, List.length_map, List.length_map]
  · intro i hi row hrow
    have hi' : i < B.length := by rw [← hd_len]; exact hi
    rw [(hchar i hi').1] at hrow
    obtain ⟨p, hp, hpe⟩ := List.mem_map.mp hrow
    have hpred := (List.mem_filter.mp hp).2
    have hpb : bisect_left B p.1.length = i := by simpa using hpred
    have hple : p.1.length ≤ B.getD i 0 := by
      have := bisect_ge B p.1.length (hpb ▸ hi')
      rwa [hpb] at this
    rw [← hpe]
    exact padTo_length _ _ _ hple
  · exact List.Perm.refl _

theorem resetState_good {bs : Nat} {bks : List Nat} {s : IterState}
    (pidx : List Nat) (ps : List (List Nat)) (hg : GoodState bs bks s)
    (hv : ValidReset pidx ps s) : GoodState bs bks (resetState pidx ps s) := by
  obtain ⟨hbs, hbk, hll, hdl, hpar, hrows, hidx⟩ := hg
  obtain ⟨hvp, hvl, hvi⟩ := hv
  have hnd_len : (resetState pidx ps s).nddata.length = s.nddata.length := by
    show ((List.range s.nddata.length).map _).length = _
    rw [List.length_map, List.length_range]
  have hnl_len : (resetState pidx ps s).ndlabel.length = s.ndlabel.length := by
    show ((List.range s.ndlabel.length).map _).length = _
    rw [List.length_map, List.length_range]
  have hnd_getD : ∀ i, i < s.nddata.length →
      (resetState pidx ps s).nddata.getD i [] =
        applyPerm (ps.getD i []) (s.nddata.getD i []) := by
    intro i hi
    show ((List.range s.nddata.length).map
      (fun i => applyPerm (ps.getD i []) (s.nddata.getD i []))).getD i [] = _
    rw [range_map_getD_lt _ _ _ hi]
  have hnl_getD : ∀ i, i < s.ndlabel.length →
      (resetState pidx ps s).ndlabel.getD i [] =
        applyPerm (ps.getD i []) (s.ndlabel.getD i []) := by
    intro i hi
    show ((List.range s.ndlabel.length).map
      (fun i => applyPerm (ps.getD i []) (s.ndlabel.getD i []))).getD i [] = _
    rw [range_map_getD_lt _ _ _ hi]
  have hd_perm : ∀ i, i < s.nddata.length →
      ((resetState pidx ps s).nddata.getD i []).Perm (s.nddata.getD i []) := by
    intro i hi
    rw [hnd_getD i hi]
    exact applyPerm_perm _ _ (hvi i hi)
  have hl_perm : ∀ i, i < s.nddata.length →
      ((resetState pidx ps s).ndlabel.getD i []).Perm (s.ndlabel.getD i []) := by
    intro i hi
    rw [hnl_getD i (by omega)]
    apply applyPerm_perm
    rw [hpar i hi]
    exact hvi i hi
  refine ⟨hbs, hbk, by omega, by omega, ?_, ?_, ?_⟩
  · intro i hi
    have hi' : i < s.nddata.length := by omega
    rw [(hd_perm i hi').length_eq, (hl_perm i hi').length_eq]
    exact hpar i hi'
  · intro i hi row hmem
    have hi' : i < s.nddata.length := by omega
    rw [hnd_getD i hi'] at hmem
    exact hrows i hi' row (mem_applyPerm hmem)
  · have h1 : (resetState pidx ps s).idx.Perm s.idx := by
      show (applyPerm pidx s.idx).Perm s.idx
      exact applyPerm_perm _ _ hvp
    have h2 : makeIdx (resetState pidx ps s).nddata bs = makeIdx s.nddata bs := by
      apply makeIdx_congr
      · exact hnd_len
      · intro i hi
        have hi' : i < s.nddata.length := by omega
        exact (hd_perm i hi').length_eq
    rw [h2]
    exact h1.trans hidx

theorem nextBatch_state {s u : IterState} {b : Batch}
    (h : nextBatch s = some (b, u)) :
    u.batch_size = s.batch_size ∧ u.buckets = s.buckets ∧
    u.nddata = s.nddata ∧ u.ndlabel = s.ndlabel ∧ u.idx = s.idx ∧
    u.curr_idx = s.curr_idx + 1 := by
  rcases hidx : s.idx[s.curr_idx]? with _ | pr
  · rw [nextBatch, hidx] at h
    cases h
  · obtain ⟨i, j⟩ := pr
    rw [nextBatch, hidx] at h
    have hp := Option.some.inj h
    rw [Prod.mk.injEq] at hp
    rw [← hp.2]
    exact ⟨rfl, rfl, rfl, rfl, rfl, rfl⟩

theorem nextBatch_spec {bs : Nat} {bks : List Nat} {s u : IterState} {b : Batch}
    (hg : GoodState bs bks s) (h : nextBatch s = some (b, u)) :
    b.data.length = bs ∧ b.label.length = bs ∧
    (∀ row ∈ b.data, row.length = b.bucket_key) ∧
    (∃ i, i < bks.length ∧ b.bucket_key = bks.getD i 0) := by
  obtain ⟨hbs, hbk, hll, hdl, hpar, hrows, hidx⟩ := hg
  subst hbs
  subst hbk
  rcases hidxget : s.idx[s.curr_idx]? with _ | pr
  · rw [nextBatch, hidxget] at h
    cases h
  · obtain ⟨i, j⟩ := pr
    rw [nextBatch, hidxget] at h
    have hp := Option.some.inj h
    rw [Prod.mk.injEq] at hp
    have hb := hp.1
    have hmem : (i, j) ∈ s.idx := by
      obtain ⟨hlt, heq⟩ := List.getElem?_eq_some.mp hidxget
      exact heq ▸ List.getElem_mem hlt
    have hmk : (i, j) ∈ makeIdx s.nddata s.batch_size := hidx.mem_iff.mp hmem
    obtain ⟨hilt, k, hk, hj⟩ := (mem_makeIdx s.nddata s.batch_size (i, j)).mp hmk
    have hjb : j + s.batch_size ≤ (s.nddata.getD i []).length := by
      have hk2 : k + 1 ≤ (s.nddata.getD i []).length / s.batch_size := hk
      have h1 : (k + 1) * s.batch_size ≤
          ((s.nddata.getD i []).length / s.batch_size) * s.batch_size :=
        Nat.mul_le_mul_right _ hk2
      have h2 : ((s.nddata.getD i []).length / s.batch_size) * s.batch_size ≤
          (s.nddata.getD i []).length := Nat.div_mul_le_self _ _
      have hj' : j = k * s.batch_size := hj
      have h3 : (k + 1) * s.batch_size = k * s.batch_size + s.batch_size := by
        ring
      omega
    have hdata_len : (((s.nddata.getD i []).drop j).take s.batch_size).length =
        s.batch_size := by
      rw [List.length_take, List.length_drop]
      omega
    have hlab_len : (((s.ndlabel.getD i []).drop j).take s.batch_size).length =
        s.batch_size := by
      rw [List.length_take, List.length_drop, hpar i hilt]
      omega
    rw [← hb]
    refine ⟨hdata_len, hlab_len, ?_, ?_⟩
    · intro row hrow
      have hrow' : row ∈ s.nddata.getD i [] :=
        List.mem_of_mem_drop (List.mem_of_mem_take hrow)
      show row.length = s.buckets.getD i 0
      exact hrows i hilt row hrow'
    · exact ⟨i, by omega, rfl⟩

theorem reaches_good {bs : Nat} {bks : List Nat} {s0 s : IterState}
    (hg : GoodState bs bks s0) (hr : Reaches s0 s) : GoodState bs bks s := by
  induction hr with
  | refl => exact hg
  | reset pidx ps _ hv ih => exact resetState_good pidx ps ih hv
  | next _ hn ih =>
    obtain ⟨h1, h2, h3, h4, h5, h6⟩ := nextBatch_state hn
    obtain ⟨g1, g2, g3, g4, g5, g6, g7⟩ := ih
    exact ⟨h1 ▸ g1, h2 ▸ g2, by rw [h3, h4]; exact g3, by rw [h3]; exact g4,
      by rw [h3, h4]; exact g5, by rw [h3]; exact g6,
      by rw [h5, h3]; exact g7⟩

/-! ## Claim C4: fixed batch shapes -/

/-- C4: under the default `'NT'` layout, every batch ever returned by
`next` (after any interleaving of resets and nexts from `__init__`) has
exactly `batch_size` data rows each of length `bucket_key`, and exactly
`batch_size` labels; no smaller batch is ever yielded. -/
theorem claim_C4_batch_shape (sentences : List (List Int)) (labels : List Int)
    (bs : Nat) (buckets0 : Option (List Nat)) (inv : Int) (s u : IterState)
    (b : Batch) (hr : Reaches (initState sentences labels bs buckets0 inv) s)
    (hn : nextBatch s = some (b, u)) :
    b.data.length = bs ∧ b.label.length = bs ∧
    ∀ row ∈ b.data, row.length = b.bucket_key := by
  have hg := reaches_good (initState_good sentences labels bs buckets0 inv) hr
  obtain ⟨h1, h2, h3, _⟩ := nextBatch_spec hg hn
  exact ⟨h1, h2, h3⟩

/-- C4 witness: from `__init__` on sentences `[[1], [2]]`, labels
`[5, 6]`, `batch_size 1`, buckets `[1]`, the first `next` yields the
batch `([[1]], [5], 1)` of shape `(1, 1)` with one label. -/
theorem claim_C4_witness :
    nextBatch (initState [[1], [2]] [5, 6] 1 (some [1]) 0) =
      some (⟨[[1]], [5], 1⟩,
        ⟨1, [1], [[[1], [2]]], [[5, 6]], [(0, 0), (0, 1)], 1⟩) ∧
    ((⟨[[1]], [5], 1⟩ : Batch).data.length = 1 ∧
     (⟨[[1]], [5], 1⟩ : Batch).label.length = 1 ∧
     ∀ row ∈ (⟨[[1]], [5], 1⟩ : Batch).data,
       row.length = (⟨[[1]], [5], 1⟩ : Batch).bucket_key) :=
  ⟨by decide,
   claim_C4_batch_shape [[1], [2]] [5, 6] 1 (some [1]) 0
     (initState [[1], [2]] [5, 6] 1 (some [1]) 0)
     ⟨1, [1], [[[1], [2]]], [[5, 6]], [(0, 0), (0, 1)], 1⟩
     ⟨[[1]], [5], 1⟩ (Reaches.refl _) (by decide)⟩

/-! ## Claim C9: `reset` preserves the sentence/label pairing -/

/-- C9: `reset` applies one and the same permutation per bucket to the
bucket's data rows and to its labels (by construction of
`resetState`), so the multiset of (padded sentence, label) pairs in each
bucket is unchanged by any `reset` with genuine random permutations. -/
theorem claim_C9_reset_pairing (s : IterState) (pidx : List Nat)
    (ps : List (List Nat)) (hv : ValidReset pidx ps s)
    (hlen : s.ndlabel.length = s.nddata.length)
    (hpar : ∀ i, i < s.nddata.length →
      (s.ndlabel.getD i []).length = (s.nddata.getD i []).length)
    (i : Nat) (hi : i < s.nddata.length) :
    (((resetState pidx ps s).nddata.getD i []).zip
      ((resetState pidx ps s).ndlabel.getD i [])).Perm
      ((s.nddata.getD i []).zip (s.ndlabel.getD i [])) := by
  obtain ⟨hvp, hvl, hvi⟩ := hv
  have hnd_getD : (resetState pidx ps s).nddata.getD i [] =
      applyPerm (ps.getD i []) (s.nddata.getD i []) := by
    show ((List.range s.nddata.length).map
      (fun i => applyPerm (ps.getD i []) (s.nddata.getD i []))).getD i [] = _
    rw [range_map_getD_lt _ _ _ hi]
  have hnl_getD : (resetState pidx ps s).ndlabel.getD i [] =
      applyPerm (ps.getD i []) (s.ndlabel.getD i []) := by
    show ((List.range s.ndlabel.length).map
      (fun i => applyPerm (ps.getD i []) (s.ndlabel.getD i []))).getD i [] = _
    rw [range_map_getD_lt _ _ _ (by omega : i < s.ndlabel.length)]
  rw [hnd_getD, hnl_getD,
    applyPerm_zip _ _ _ (hpar i hi).symm]
  apply applyPerm_perm
  have hzlen : ((s.nddata.getD i []).zip (s.ndlabel.getD i [])).length =
      (s.nddata.getD i []).length := by
    rw [List.length_zip, hpar i hi]
    exact Nat.min_self _
  rw [hzlen]
  exact hvi i hi

/-- C9 witness: a two-row bucket with the swap permutation `[1, 0]`:
the zipped (row, label) pairs after reset are a permutation of those
before. -/
theorem claim_C9_witness :
    ValidReset [1, 0] [[1, 0]] (initState [[1], [2]] [5, 6] 1 (some [1]) 0) ∧
    ((initState [[1], [2]] [5, 6] 1 (some [1]) 0).ndlabel.length =
      (initState [[1], [2]] [5, 6] 1 (some [1]) 0).nddata.length) ∧
    ((((resetState [1, 0] [[1, 0]]
        (initState [[1], [2]] [5, 6] 1 (some [1]) 0)).nddata.getD 0 []).zip
      ((resetState [1, 0] [[1, 0]]
        (initState [[1], [2]] [5, 6] 1 (some [1]) 0)).ndlabel.getD 0 [])).Perm
      (((initState [[1], [2]] [5, 6] 1 (some [1]) 0).nddata.getD 0 []).zip
        ((initState [[1], [2]] [5, 6] 1 (some [1]) 0).ndlabel.getD 0 []))) :=
  ⟨⟨by decide, by decide, by decide⟩,
   by decide,
   claim_C9_reset_pairing (initState [[1], [2]] [5, 6] 1 (some [1]) 0)
     [1, 0] [[1, 0]] ⟨by decide, by decide, by decide⟩
     (by decide) (by decide) 0 (by decide)⟩

/-- C3 witness: the two-line file `"1 a b"`, `"0 c"` is well-formed and
`get_dataset` returns its parallel lists and maximum length. -/
theorem claim_C3_witness :
    (∀ line ∈ ["1 a b", "0 c"], ∃ t0 words lab,
      pySplit line = t0 :: words ∧ pyParseInt t0 = some lab) ∧
    (∃ sents labs m, get_dataset ["1 a b", "0 c"] = some (sents, labs, m) ∧
      sents.length = (["1 a b", "0 c"] : List String).length ∧
      labs.length = (["1 a b", "0 c"] : List String).length ∧
      (∀ i (hi : i < (["1 a b", "0 c"] : List String).length), ∃ t0,
        pySplit ((["1 a b", "0 c"] : List String).get ⟨i, hi⟩) =
          t0 :: sents.getD i [] ∧
        pyParseInt t0 = some (labs.getD i 0)) ∧
      ((["1 a b", "0 c"] : List String) = [] → m = -1) ∧
      (∀ s ∈ sents, (s.length : Int) ≤ m) ∧
      ((["1 a b", "0 c"] : List String) ≠ [] →
        ∃ s ∈ sents, m = (s.length : Int))) := by
  have hh : ∀ line ∈ ["1 a b", "0 c"], ∃ t0 words lab,
      pySplit line = t0 :: words ∧ pyParseInt t0 = some lab := by
    intro line hline
    simp only [List.mem_cons, List.not_mem_nil, or_false] at hline
    rcases hline with rfl | rfl
    · exact ⟨"1", ["a", "b"], 1, rfl, rfl⟩
    · exact ⟨"0", ["c"], 0, rfl, rfl⟩
  exact ⟨hh, claim_C3_get_dataset ["1 a b", "0 c"] hh⟩

/-! ## Claim C8: dropped data and exact epoch length -/

theorem iterateN_spec : ∀ (k : Nat) (s : IterState),
    s.curr_idx + k ≤ s.idx.length →
    ∃ s2, iterateN k s = some s2 ∧ s2.idx = s.idx ∧
      s2.curr_idx = s.curr_idx + k := by
  intro k
  induction k with
  | zero => intro s _; exact ⟨s, rfl, rfl, rfl⟩
  | succ k ih =>
    intro s hk
    have hlt : s.curr_idx < s.idx.length := by omega
    rcases hpr : s.idx[s.curr_idx]? with _ | pr
    · rw [List.getElem?_eq_getElem hlt] at hpr
      cases hpr
    · obtain ⟨i, j⟩ := pr
      have hnext : nextBatch s = some
          (⟨((s.nddata.getD i []).drop j).take s.batch_size,
            ((s.ndlabel.getD i []).drop j).take s.batch_size,
            s.buckets.getD i 0⟩,
           ⟨s.batch_size, s.buckets, s.nddata, s.ndlabel, s.idx,
            s.curr_idx + 1⟩) := by
        rw [nextBatch, hpr]
      obtain ⟨s2, h1, h2, h3⟩ := ih
        ⟨s.batch_size, s.buckets, s.nddata, s.ndlabel, s.idx, s.curr_idx + 1⟩
        (by show s.curr_idx + 1 + k ≤ s.idx.length
            omega)
      refine ⟨s2, ?_, ?_, ?_⟩
      · rw [iterateN, hnext]
        exact h1
      · exact h2
      · have h3' : s2.curr_idx = s.curr_idx + 1 + k := h3
        omega

/-- C8: the iterator silently drops data: a sentence strictly longer
than the largest bucket appears (as a prefix of a padded row) in no
yielded batch; in any freshly-reset state, each bucket `b` of `n_b` rows
contributes exactly `n_b / batch_size` batch starts, every batch start
stays within the first `batch_size * (n_b / batch_size)` rows (so the
`n_b mod batch_size` leftover rows of the epoch's shuffle are never
sliced); and `next` succeeds exactly `sum_b (n_b / batch_size)` times
since the last reset before raising `StopIteration`. -/
theorem claim_C8_dropped_data_and_epoch (sentences : List (List Int))
    (labels : List Int) (bs : Nat) (buckets0 : Option (List Nat)) (inv : Int)
    (s : IterState) (hbs : 0 < bs)
    (hr : Reaches (initState sentences labels bs buckets0 inv) s)
    (hfresh : s.curr_idx = 0) :
    (∀ i (hi : i < sentences.length),
      listMax (initState sentences labels bs buckets0 inv).buckets <
        (sentences.get ⟨i, hi⟩).length →
      ∀ (t u : IterState) (batch : Batch),
        Reaches (initState sentences labels bs buckets0 inv) t →
        nextBatch t = some (batch, u) →
        ∀ row ∈ batch.data, ¬ ∃ tail, row = sentences.get ⟨i, hi⟩ ++ tail) ∧
    (∀ b, b < s.nddata.length →
      (s.idx.filter (fun pr => pr.1 = b)).length =
        (s.nddata.getD b []).length / bs) ∧
    (∀ pr ∈ s.idx,
      pr.2 + bs ≤ bs * ((s.nddata.getD pr.1 []).length / bs)) ∧
    s.idx.length = (s.nddata.map (fun buck => buck.length / bs)).sum ∧
    (∃ s2, iterateN s.idx.length s = some s2 ∧ nextBatch s2 = none) := by
  have hg := reaches_good (initState_good sentences labels bs buckets0 inv) hr
  obtain ⟨hbs', hbk, hll, hdl, hpar, hrows, hidx⟩ := hg
  refine ⟨?_, ?_, ?_, ?_, ?_⟩
  · intro i hi hlong t u batch hrt hnt row hrow hcontra
    have hgt := reaches_good (initState_good sentences labels bs buckets0 inv) hrt
    obtain ⟨-, -, hrowlen, i0, hi0, hkey⟩ := nextBatch_spec hgt hnt
    have hlen_row : row.length =
        (initState sentences labels bs buckets0 inv).buckets.getD i0 0 := by
      rw [hrowlen row hrow, hkey]
    have hmem : (initState sentences labels bs buckets0 inv).buckets.getD i0 0 ∈
        (initState sentences labels bs buckets0 inv).buckets := by
      rw [getD_eq_getElem_of_lt _ _ hi0, List.get_eq_getElem]
      exact List.getElem_mem hi0
    have hle : row.length ≤
        listMax (initState sentences labels bs buckets0 inv).buckets := by
      rw [hlen_row]
      exact le_listMax _ _ hmem
    obtain ⟨tail, htail⟩ := hcontra
    have : row.length = (sentences.get ⟨i, hi⟩).length + tail.length := by
      rw [htail, List.length_append]
    omega
  · intro b hb
    have hfil : (s.idx.filter (fun pr => pr.1 = b)).Perm
        ((makeIdx s.nddata bs).filter (fun pr => pr.1 = b)) :=
      hidx.filter _
    rw [hfil.length_eq, filter_makeIdx s.nddata bs b hb, List.length_map,
      length_bucketIdx]
  · intro pr hpr
    have hmk : pr ∈ makeIdx s.nddata bs := hidx.mem_iff.mp hpr
    obtain ⟨_, k, hk, hj⟩ := (mem_makeIdx s.nddata bs pr).mp hmk
    have h1 : (k + 1) * bs ≤ ((s.nddata.getD pr.1 []).length / bs) * bs :=
      Nat.mul_le_mul_right _ hk
    have h2 : (k + 1) * bs = k * bs + bs := by ring
    have h3 : ((s.nddata.getD pr.1 []).length / bs) * bs =
        bs * ((s.nddata.getD pr.1 []).length / bs) := Nat.mul_comm _ _
    omega
  · rw [hidx.length_eq, length_makeIdx]
  · obtain ⟨s2, h1, h2, h3⟩ := iterateN_spec s.idx.length s (by omega)
    refine ⟨s2, h1, ?_⟩
    have hnone : s2.idx[s2.curr_idx]? = none := by
      rw [h2, h3, hfresh]
      exact List.getElem?_eq_none (by omega)
    rw [nextBatch, hnone]

/-- C8 witness: the freshly-initialised iterator on sentences
`[[1], [2]]`, labels `[5, 6]`, `batch_size 1`, buckets `[1]`; its single
bucket of 2 rows yields exactly 2 batches and then stops. -/
theorem claim_C8_witness :
    0 < 1 ∧
    (initState [[1], [2]] [5, 6] 1 (some [1]) 0).curr_idx = 0 ∧
    ((∀ i (hi : i < ([[1], [2]] : List (List Int)).length),
      listMax (initState [[1], [2]] [5, 6] 1 (some [1]) 0).buckets <
        (([[1], [2]] : List (List Int)).get ⟨i, hi⟩).length →
      ∀ (t u : IterState) (batch : Batch),
        Reaches (initState [[1], [2]] [5, 6] 1 (some [1]) 0) t →
        nextBatch t = some (batch, u) →
        ∀ row ∈ batch.data,
          ¬ ∃ tail, row = ([[1], [2]] : List (List Int)).get ⟨i, hi⟩ ++ tail) ∧
    (∀ b, b < (initState [[1], [2]] [5, 6] 1 (some [1]) 0).nddata.length →
      ((initState [[1], [2]] [5, 6] 1 (some [1]) 0).idx.filter
        (fun pr => pr.1 = b)).length =
        ((initState [[1], [2]] [5, 6] 1 (some [1]) 0).nddata.getD b
          []).length / 1) ∧
    (∀ pr ∈ (initState [[1], [2]] [5, 6] 1 (some [1]) 0).idx,
      pr.2 + 1 ≤ 1 * (((initState [[1], [2]] [5, 6] 1
        (some [1]) 0).nddata.getD pr.1 []).length / 1)) ∧
    (initState [[1], [2]] [5, 6] 1 (some [1]) 0).idx.length =
      ((initState [[1], [2]] [5, 6] 1 (some [1]) 0).nddata.map
        (fun buck => buck.length / 1)).sum ∧
    (∃ s2, iterateN (initState [[1], [2]] [5, 6] 1 (some [1]) 0).idx.length
        (initState [[1], [2]] [5, 6] 1 (some [1]) 0) = some s2 ∧
      nextBatch s2 = none)) :=
  ⟨by decide, rfl,
   claim_C8_dropped_data_and_epoch [[1], [2]] [5, 6] 1 (some [1]) 0
     (initState [[1], [2]] [5, 6] 1 (some [1]) 0) (by decide)
     (Reaches.refl _) rfl⟩

end SA

